import Mathlib

/-!
Verification of the polymarket-dashboard event pipeline.

The TypeScript sources are shallowly embedded below:
* trade matching (`doesTradeMatchTokens` from `app/api/markets/route.ts`,
  `filterTradesByTokens` from `lib/db.ts`),
* the price calculator (`calculateTokenPrice`, `calculateMarketPrices`
  from `lib/price-calculator.ts`),
* the sequential retry queue (`processQueue`, `enqueueQuery` from
  `lib/polling.ts`), modelled as a trace-producing drain function,
* the idempotent event store (`insert*Event` from `lib/db.ts`), modelled
  as list-backed tables with the schema's unique keys,
* the ingestion jobs (`processTokenRegisteredEvents`,
  `processQuestionInitializedEvents` from `lib/polling.ts`), with the
  upstream fetch modelled as an `Except` value,
* the ancillary-data field parser (`parseAncillaryData` from
  `lib/decoder.ts`), with the JavaScript regular expressions given an
  explicit operational backtracking semantics over `List Char`.

JavaScript strings are modelled as `String`; nullable strings as
`Option String`; JavaScript truthiness of a string is emptiness testing.
Numeric amounts are modelled as `Option ℚ` (`none` is `NaN`,
the result of a failed `parseFloat`).
-/

/-- JavaScript `toLowerCase`, realised characterwise over the string's
character list (ASCII case folding, which covers every identifier and
keyword compared in the sources). -/
def lowerStr (s : String) : String := String.mk (s.data.map Char.toLower)

/-- The quote-currency (USDC) sentinel identifiers, lowercased, from
`filterTradesByTokens` / `doesTradeMatchTokens` / `isUSDC`. -/
def usdcValues : List String :=
  ["0", "0x0", "0x0000000000000000000000000000000000000000"]

/-- A row of `order_filled_events` as consumed by the matchers and the
price calculator.  `block_time` is the epoch timestamp obtained from
`new Date(trade.block_time).getTime()`; the amount fields carry the
result of `parseFloat` on the stored decimal strings (`none` = `NaN`). -/
structure Trade where
  maker_asset_id : String
  taker_asset_id : String
  maker_amount_filled : Option ℚ
  taker_amount_filled : Option ℚ
  block_time : Nat
deriving DecidableEq, Repr

/-- JavaScript `x ? String(x).toLowerCase() : null` on a string. -/
def normalizeId (s : String) : Option String :=
  if s = "" then none else some (lowerStr s)

/-- JavaScript `x ? x.toLowerCase() : null` on a nullable string. -/
def normalizeOptId (s : Option String) : Option String :=
  match s with
  | none => none
  | some v => if v = "" then none else some (lowerStr v)

/-- Truthiness of a nullable JavaScript string. -/
def strTruthy (s : Option String) : Bool :=
  match s with
  | none => false
  | some v => v ≠ ""

/-- `usdcValues.includes` lifted to a nullable normalized id, as in the
guard `normalizedToken0 && usdcValues.includes(normalizedToken0)`. -/
def optIsUSDC (s : Option String) : Bool :=
  match s with
  | none => false
  | some v => usdcValues.contains v

/-- One side (`makerMatch` / `takerMatch`) of `doesTradeMatchTokens`:
the normalized asset id equals a normalized market token, or it is a
USDC representation and one of the market tokens is a USDC
representation. -/
def sideMatchCode (normSide nt0 nt1 : Option String) : Bool :=
  match normSide with
  | none => false
  | some m =>
      (some m = nt0) || (some m = nt1) ||
        (optIsUSDC normSide && (optIsUSDC nt0 || optIsUSDC nt1))

/-- Embedding of `doesTradeMatchTokens` (app/api/markets/route.ts).
Decides whether a trade belongs to a market with outcome tokens
`token0` / `token1`, matching the quote-currency sentinel only when one
of the market tokens is itself the sentinel. -/
def doesTradeMatchTokens (trade : Trade) (token0 token1 : Option String) : Bool :=
  if !(strTruthy token0 || strTruthy token1) then false
  else
    sideMatchCode (normalizeId trade.maker_asset_id)
        (normalizeOptId token0) (normalizeOptId token1) ||
      sideMatchCode (normalizeId trade.taker_asset_id)
        (normalizeOptId token0) (normalizeOptId token1)

/-- Spec-side quote-currency class: an identifier is quote currency when
its case-insensitive normalization is `"0"`, `"0x0"` or the 20-byte zero
address. -/
def quoteClass (s : String) : Bool := usdcValues.contains (lowerStr s)

/-- Spec-side: does a nullable market token lie in the quote class. -/
def optQuoteClass (s : Option String) : Bool :=
  match s with
  | none => false
  | some v => quoteClass v

/-- Spec-side: does an asset id equal a (possibly absent) market token,
after case-insensitive normalization. -/
def eqOptToken (assetId : String) (t : Option String) : Bool :=
  match t with
  | some v => lowerStr assetId = lowerStr v
  | none => false

/-- Spec-side side-match from the claim: a side matches when its asset id
equals `token0` or `token1` after case-insensitive normalization, or it
is in the quote-currency class and at least one of `token0`/`token1` is
itself in the quote-currency class. -/
def specSideMatches (assetId : String) (token0 token1 : Option String) : Bool :=
  eqOptToken assetId token0 || eqOptToken assetId token1 ||
    (quoteClass assetId && (optQuoteClass token0 || optQuoteClass token1))

/-- Spec-side trade match from the claim: the maker side or the taker
side matches. -/
def specTradeMatches (trade : Trade) (token0 token1 : Option String) : Bool :=
  specSideMatches trade.maker_asset_id token0 token1 ||
    specSideMatches trade.taker_asset_id token0 token1

/-! ## Price calculator (lib/price-calculator.ts) -/
/-- Embedding of `isUSDC`: an asset id is a USDC representation when its
lowercase form is `"0"`, `"0x0"`, or the 20-byte zero address; the empty
(falsy) string is not. -/
def isUSDC (assetId : String) : Bool :=
  if assetId = "" then false
  else
    lowerStr assetId = "0" || lowerStr assetId = "0x0" ||
      lowerStr assetId = "0x0000000000000000000000000000000000000000"

/-- The `relevantTrades` filter of `calculateTokenPrice`: one side equals
the token id (`null === null` included, as in the JavaScript `===` on the
normalized nullable ids) and some side is USDC. -/
def tradeInvolvesToken (tokenId : String) (trade : Trade) : Bool :=
  ((normalizeId trade.maker_asset_id = normalizeId tokenId) ||
      (normalizeId trade.taker_asset_id = normalizeId tokenId)) &&
    (isUSDC trade.maker_asset_id || isUSDC trade.taker_asset_id)

/-- The push guard `price !== null && price > 0` of the price loop. -/
def posOnly (price : Option ℚ) : Option ℚ :=
  match price with
  | some p => if 0 < p then some p else none
  | none => none

/-- One iteration of the price loop of `calculateTokenPrice`: the price
pushed for a trade, or `none` when the trade is skipped (missing or zero
amount, or neither orientation pairs the token against USDC, or the
computed price is not positive). -/
def priceOfTrade (tokenId : String) (trade : Trade) : Option ℚ :=
  match trade.maker_amount_filled, trade.taker_amount_filled with
  | some mRaw, some tRaw =>
      if mRaw / 1000000 = 0 ∨ tRaw / 1000000 = 0 then none
      else
        posOnly
          (if isUSDC trade.maker_asset_id &&
              (lowerStr trade.taker_asset_id = lowerStr tokenId) then
            some (mRaw / 1000000 / (tRaw / 1000000))
          else if isUSDC trade.taker_asset_id &&
              (lowerStr trade.maker_asset_id = lowerStr tokenId) then
            some (tRaw / 1000000 / (mRaw / 1000000))
          else none)
  | _, _ => none

/-- Stable descending insertion by block time (the JavaScript
`sort((a, b) => timeB - timeA)` is stable, so an element is placed after
all earlier elements with greater-or-equal time). -/
def insertDesc (t : Trade) : List Trade → List Trade
  | [] => [t]
  | u :: us =>
      if t.block_time ≤ u.block_time then u :: insertDesc t us
      else t :: u :: us

/-- The `sortedTrades` list of `calculateTokenPrice`: trades sorted by
block time, most recent first. -/
def sortByTimeDesc (l : List Trade) : List Trade :=
  l.foldl (fun acc t => insertDesc t acc) []

/-- The price-collection loop of `calculateTokenPrice`: the list of
pushed prices in iteration order, together with `lastTradeTime` (the
block time of the first trade that pushed a price). -/
def collectPrices (tokenId : String) : List Trade → List ℚ × Option Nat
  | [] => ([], none)
  | t :: rest =>
      match priceOfTrade tokenId t with
      | none => collectPrices tokenId rest
      | some p => (p :: (collectPrices tokenId rest).1, some t.block_time)

/-- Zero-pad a digit string on the left to the given width. -/
def padLeftZeros (s : String) (w : Nat) : String :=
  String.mk (List.replicate (w - s.length) '0') ++ s

/-- ECMAScript `Number.prototype.toFixed` on an exact rational: the
integer `n` minimising the distance of `n / 10^digits` to the value
(larger `n` on ties), rendered with exactly `digits` fractional digits.
Used only on the nonnegative prices produced by the calculator. -/
def qToFixed (q : ℚ) (digits : Nat) : String :=
  let scaled : ℤ := ⌊q * (10 : ℚ) ^ digits + 1 / 2⌋
  let n : Nat := scaled.toNat
  toString (n / 10 ^ digits) ++ "." ++ padLeftZeros (toString (n % 10 ^ digits)) digits

/-- The result record of `calculateTokenPrice`. -/
structure PriceInfo where
  price : ℚ
  formatted : String
  formattedCents : String
  lastTradeTime : Option Nat
deriving DecidableEq, Repr

/-- Embedding of `calculateTokenPrice`: filter the trades involving the
token against USDC, sort them most recent first, collect the valid
prices, and report the first collected price (the latest valid trade)
with its formatted renderings and the producing trade's block time. -/
def calculateTokenPrice (trades : List Trade) (tokenId : String) : Option PriceInfo :=
  let relevantTrades := trades.filter (tradeInvolvesToken tokenId)
  if relevantTrades.length = 0 then none
  else
    let collected := collectPrices tokenId (sortByTimeDesc relevantTrades)
    match collected.1 with
    | [] => none
    | latestPrice :: _ =>
        some { price := latestPrice
               formatted := qToFixed latestPrice 4 ++ " USDC"
               formattedCents := qToFixed (latestPrice * 100) 1 ++ "¢"
               lastTradeTime := collected.2 }

/-- Descending order by block time, as produced by the sort. -/
def SortedDesc (l : List Trade) : Prop :=
  List.Pairwise (fun a b => b.block_time ≤ a.block_time) l

/-- Spec-side per-trade price from claim C4: for a trade pairing the
token against the quote currency, the quote amount divided by the token
amount, both raw amounts first divided by `10^6`; skipped (`none`) when
either amount is missing (non-numeric) or zero, or the trade does not
pair the token against the quote currency. -/
def specTradePrice (tokenId : String) (trade : Trade) : Option ℚ :=
  match trade.maker_amount_filled, trade.taker_amount_filled with
  | some mRaw, some tRaw =>
      if mRaw / 1000000 = 0 ∨ tRaw / 1000000 = 0 then none
      else if quoteClass trade.maker_asset_id &&
          (lowerStr trade.taker_asset_id = lowerStr tokenId) then
        some (mRaw / 1000000 / (tRaw / 1000000))
      else if quoteClass trade.taker_asset_id &&
          (lowerStr trade.maker_asset_id = lowerStr tokenId) then
        some (tRaw / 1000000 / (mRaw / 1000000))
      else none
  | _, _ => none

/-- Both parsed amounts of a trade, where present, are nonnegative (the
on-chain amounts are unsigned decimal strings). -/
def amountsOk (t : Trade) : Bool :=
  (match t.maker_amount_filled with
   | some q => decide ((0 : ℚ) ≤ q)
   | none => true) &&
  (match t.taker_amount_filled with
   | some q => decide ((0 : ℚ) ≤ q)
   | none => true)

/-- The result record of `calculateMarketPrices`. -/
structure MarketPrices where
  yesPrice : Option PriceInfo
  noPrice : Option PriceInfo
  token0IsYes : Bool
deriving DecidableEq, Repr

/-- `p1IsNo` from `calculateMarketPrices`: the outcome label normalizes
to "No"/"0". -/
def labelIsNo (s : String) : Bool := s = "0" || lowerStr s = "no"

/-- `p2IsYes` from `calculateMarketPrices`: the outcome label normalizes
to "Yes"/"1". -/
def labelIsYes (s : String) : Bool := s = "1" || lowerStr s = "yes"

/-- JavaScript `tid ? calculateTokenPrice(trades, tid) : null`. -/
def priceForOptToken (trades : List Trade) (tid : Option String) : Option PriceInfo :=
  match tid with
  | some v => if v = "" then none else calculateTokenPrice trades v
  | none => none

/-- Embedding of `calculateMarketPrices`: map the outcome labels
`p1`/`p2` onto the token pair (defaulting to token0 = NO, token1 = YES)
and compute a price for each mapped token. -/
def calculateMarketPrices (trades : List Trade) (token0 token1 : Option String)
    (p1 p2 : String) : MarketPrices :=
  let token0IsYes :=
    if labelIsNo p1 && labelIsYes p2 then false
    else if !labelIsNo p1 && labelIsYes p2 then
      (lowerStr p1 = "yes" || p1 = "1")
    else false
  { yesPrice := priceForOptToken trades (if token0IsYes then token0 else token1)
    noPrice := priceForOptToken trades (if token0IsYes then token1 else token0)
    token0IsYes := token0IsYes }

/-! ## Sequential retry queue (lib/polling.ts) -/
/-- Retry configuration constants from lib/polling.ts. -/
def DEFAULT_MAX_RETRIES : Nat := 3

/-- Initial backoff: start with 1 second. -/
def INITIAL_BACKOFF_MS : Nat := 1000

/-- Double the wait time on each retry. -/
def BACKOFF_MULTIPLIER : Nat := 2

/-- A queued job: the zero-argument asynchronous function is modelled by
its outcome per execution — `behavior k` is `true` when the k-th run of
this job (0-based) succeeds — plus an identifier for the trace. -/
structure Job where
  id : Nat
  behavior : Nat → Bool

/-- A `QueuedQuery` entry of the queue in lib/polling.ts. -/
structure QueuedQuery where
  job : Job
  retries : Nat
  maxRetries : Nat
  backoffMs : Nat

/-- Observable scheduler events: a job execution (with its attempt
index), a backoff sleep, a permanent drop after exhausting retries, and
a successful completion. -/
inductive QueueEvent where
  | exec : Nat → Nat → QueueEvent
  | sleep : Nat → QueueEvent
  | drop : Nat → QueueEvent
  | complete : Nat → QueueEvent
deriving DecidableEq, Repr

/-- Termination measure for the drain loop: remaining permitted
attempts plus queue length. -/
def queueMeasure (l : List QueuedQuery) : Nat :=
  (l.map fun q => q.maxRetries + 1 - q.retries).sum + l.length

/-- Embedding of `processQueue`: drain the queue strictly one job at a
time; on success continue with the next job; on failure with
`retries < maxRetries` sleep for the current backoff, double it, and
re-insert the job at the head with `retries + 1`; otherwise drop the
job permanently. -/
def processQueue : List QueuedQuery → List QueueEvent
  | [] => []
  | q :: rest =>
      if q.job.behavior q.retries then
        QueueEvent.exec q.job.id q.retries :: QueueEvent.complete q.job.id ::
          processQueue rest
      else if q.retries < q.maxRetries then
        QueueEvent.exec q.job.id q.retries :: QueueEvent.sleep q.backoffMs ::
          processQueue
            ({ job := q.job, retries := q.retries + 1, maxRetries := q.maxRetries,
               backoffMs := q.backoffMs * BACKOFF_MULTIPLIER } :: rest)
      else
        QueueEvent.exec q.job.id q.retries :: QueueEvent.drop q.job.id ::
          processQueue rest
termination_by l => queueMeasure l
decreasing_by
  all_goals simp [queueMeasure, List.map_cons, List.sum_cons]
  all_goals omega

/-- Embedding of `enqueueQuery`: append a fresh entry (zero retries so
far, the given retry ceiling and initial backoff) at the queue's tail. -/
def enqueueQuery (queue : List QueuedQuery) (jb : Job)
    (maxRetries initialBackoffMs : Nat) : List QueuedQuery :=
  queue ++
    [{ job := jb, retries := 0, maxRetries := maxRetries,
       backoffMs := initialBackoffMs }]

/-- Spec-side trace of a permanently failing job from claim C2, with
`n` retries remaining: each failed attempt is followed by a sleep of
the current backoff, the backoff doubles, and the final attempt is
followed by a permanent drop. -/
def specFailTrace (id : Nat) (b : Nat) (r : Nat) : Nat → List QueueEvent
  | 0 => [QueueEvent.exec id r, QueueEvent.drop id]
  | n + 1 =>
      QueueEvent.exec id r :: QueueEvent.sleep b ::
        specFailTrace id (b * 2) (r + 1) n

/-- Number of job executions recorded in a trace. -/
def execCount (tr : List QueueEvent) : Nat :=
  (tr.filter fun e =>
    match e with
    | QueueEvent.exec _ _ => true
    | _ => false).length

/-- The sleep durations of a trace, in order. -/
def sleepList (tr : List QueueEvent) : List Nat :=
  tr.filterMap fun e =>
    match e with
    | QueueEvent.sleep ms => some ms
    | _ => none

/-- The job a trace event belongs to (`none` for sleeps). -/
def eventJobId : QueueEvent → Option Nat
  | QueueEvent.exec j _ => some j
  | QueueEvent.sleep _ => none
  | QueueEvent.drop j => some j
  | QueueEvent.complete j => some j

/-! ## Event store (lib/db.ts) -/
/-- A row of `token_registered_events`; the schema constraint is
`UNIQUE(transaction_hash, condition_id)`. -/
structure TokenRegRow where
  condition_id : String
  token0 : Option String
  token1 : Option String
  block_time : String
  block_number : Nat
  transaction_hash : String
deriving DecidableEq, Repr

/-- A row of `order_filled_events`; `order_hash` is `UNIQUE`. -/
structure OrderFilledRow where
  order_hash : String
  maker : String
  taker : String
  maker_asset_id : String
  taker_asset_id : String
  maker_amount_filled : String
  taker_amount_filled : String
  fee : Option String
  block_time : String
  block_number : Nat
  transaction_hash : String
deriving DecidableEq, Repr

/-- A row of `condition_preparation_events`; `condition_id` is
`UNIQUE`. -/
structure CondPrepRow where
  condition_id : String
  question_id : String
  outcome_slot_count : Option String
  oracle : Option String
  block_time : String
  block_number : Nat
  transaction_hash : String
deriving DecidableEq, Repr

/-- A row of `question_initialized_events`; `question_id` is `UNIQUE`.
The decoded ancillary record is stored alongside the raw hex. -/
structure QuestionRow where
  question_id : String
  request_timestamp : Option String
  creator : Option String
  ancillary_data : Option String
  ancillary_data_decoded : Option String
  reward_token : Option String
  reward : Option String
  proposal_bond : Option String
  block_time : String
  block_number : Nat
  transaction_hash : String
deriving DecidableEq, Repr

/-- SQLite `INSERT OR IGNORE`: append the row unless some existing row
collides on the table's unique key (`dup` tests a key collision with
the incoming row). -/
def insertDedup {α : Type} (dup : α → Bool) (st : List α) (e : α) : List α :=
  if st.any dup then st else st ++ [e]

/-- Embedding of `insertTokenRegisteredEvent`: deduplicated on
`(transaction_hash, condition_id)`. -/
def insertTokenRegisteredEvent (st : List TokenRegRow) (e : TokenRegRow) :
    List TokenRegRow :=
  insertDedup
    (fun r => (r.transaction_hash = e.transaction_hash) &&
      (r.condition_id = e.condition_id)) st e

/-- Embedding of `insertOrderFilledEvent`: deduplicated on
`order_hash`. -/
def insertOrderFilledEvent (st : List OrderFilledRow) (e : OrderFilledRow) :
    List OrderFilledRow :=
  insertDedup (fun r => r.order_hash = e.order_hash) st e

/-- Embedding of `insertConditionPreparationEvent`: deduplicated on
`condition_id`. -/
def insertConditionPreparationEvent (st : List CondPrepRow) (e : CondPrepRow) :
    List CondPrepRow :=
  insertDedup (fun r => r.condition_id = e.condition_id) st e

/-- Embedding of `insertQuestionInitializedEvent`: deduplicated on
`question_id`. -/
def insertQuestionInitializedEvent (st : List QuestionRow) (e : QuestionRow) :
    List QuestionRow :=
  insertDedup (fun r => r.question_id = e.question_id) st e

/-- The four tables of the event store. -/
structure EventStore where
  token_registered_events : List TokenRegRow
  order_filled_events : List OrderFilledRow
  condition_preparation_events : List CondPrepRow
  question_initialized_events : List QuestionRow
deriving DecidableEq, Repr

/-- The store before any ingestion. -/
def emptyStore : EventStore := ⟨[], [], [], []⟩

/-- One insert delivered to the store, for any of the four event
kinds. -/
inductive StoreOp where
  | tokenReg : TokenRegRow → StoreOp
  | orderFilled : OrderFilledRow → StoreOp
  | condPrep : CondPrepRow → StoreOp
  | questionInit : QuestionRow → StoreOp
deriving DecidableEq, Repr

/-- Apply one deduplicating insert to the store. -/
def applyOp (st : EventStore) (op : StoreOp) : EventStore :=
  match op with
  | StoreOp.tokenReg e =>
      { st with token_registered_events :=
          insertTokenRegisteredEvent st.token_registered_events e }
  | StoreOp.orderFilled e =>
      { st with order_filled_events :=
          insertOrderFilledEvent st.order_filled_events e }
  | StoreOp.condPrep e =>
      { st with condition_preparation_events :=
          insertConditionPreparationEvent st.condition_preparation_events e }
  | StoreOp.questionInit e =>
      { st with question_initialized_events :=
          insertQuestionInitializedEvent st.question_initialized_events e }

/-- Key uniqueness across all four tables: no two rows of a table share
that table's schema key. -/
def StoreInv (st : EventStore) : Prop :=
  st.token_registered_events.Pairwise
    (fun a b => a.transaction_hash ≠ b.transaction_hash ∨
      a.condition_id ≠ b.condition_id) ∧
  st.order_filled_events.Pairwise (fun a b => a.order_hash ≠ b.order_hash) ∧
  st.condition_preparation_events.Pairwise
    (fun a b => a.condition_id ≠ b.condition_id) ∧
  st.question_initialized_events.Pairwise
    (fun a b => a.question_id ≠ b.question_id)

/-! ## Ancillary-data decoder and field parser (lib/decoder.ts)

The JavaScript regular expressions of `parseAncillaryData` are given an
explicit operational semantics over `List Char`, following the engine's
leftmost-match and backtracking order for each concrete pattern. -/
/-- Case-insensitive character comparison (ASCII case folding, as used
by the `i` regex flag and `toLowerCase().indexOf(...)`). -/
def ciEq (a b : Char) : Bool := a.toLower = b.toLower

/-- Does `key` occur case-insensitively at the head of `t`. -/
def startsWithCI : List Char → List Char → Bool
  | _, [] => true
  | [], _ :: _ => false
  | c :: cs, k :: ks => ciEq c k && startsWithCI cs ks

/-- `t.toLowerCase().indexOf(key)`: the least index at which `key`
occurs case-insensitively in `t`. -/
def indexOfCI (key : List Char) : List Char → Option Nat
  | [] => if startsWithCI [] key then some 0 else none
  | c :: rest =>
      if startsWithCI (c :: rest) key then some 0
      else (indexOfCI key rest).map (· + 1)

/-- JavaScript `\s` on the ASCII range. -/
def isWS (c : Char) : Bool :=
  c = ' ' || c = '\t' || c = '\n' || c = '\r' || c = '\x0b' || c = '\x0c'

/-- Length of the leading whitespace run. -/
def wsRun : List Char → Nat
  | [] => 0
  | c :: rest => if isWS c then wsRun rest + 1 else 0

/-- JavaScript `String.prototype.trim`. -/
def trimChars (l : List Char) : List Char :=
  ((l.dropWhile isWS).reverse.dropWhile isWS).reverse

/-- The continuation `\s*([^,]+)` of the simple field patterns
`/key:\s*([^,]+)/i`, with the engine's greedy backtracking over `\s*`:
the capture starts after the whitespace run when a non-comma character
follows, else (backtracking one step) it is the run's last whitespace
character; `none` when no nonempty capture exists. -/
def captureAfterKey (rest : List Char) : Option (List Char) :=
  let w := wsRun rest
  match rest.drop w with
  | c :: tl =>
      if c = ',' then
        if w > 0 then some ((rest.drop (w - 1)).takeWhile fun x => x ≠ ',') else none
      else some ((c :: tl).takeWhile fun x => x ≠ ',')
  | [] =>
      if w > 0 then some ((rest.drop (w - 1)).takeWhile fun x => x ≠ ',') else none

/-- Leftmost match of `/key:\s*([^,]+)/i` over the text, returning the
captured group. -/
def fieldMatch (key : List Char) : List Char → Option (List Char)
  | [] => none
  | c :: rest =>
      if startsWithCI (c :: rest) key then
        match captureAfterKey ((c :: rest).drop key.length) with
        | some cap => some cap
        | none => fieldMatch key rest
      else fieldMatch key rest

/-- Does one of `res_data:`/`p1:`/`p2:`/`p3:`/`initializer:` occur
case-insensitively at the head of `t`. -/
def tailFieldAt (t : List Char) : Bool :=
  startsWithCI t ("res_data:".data) || startsWithCI t ("p1:".data) ||
    startsWithCI t ("p2:".data) || startsWithCI t ("p3:".data) ||
    startsWithCI t ("initializer:".data)

/-- `match.index` of the leftmost match of
`/\s*(?:res_data|p1|p2|p3|initializer):/i`: the keywords start with
non-whitespace, so a match at a position is a keyword at the end of
that position's whitespace run. -/
def nextFieldIdx : List Char → Option Nat
  | [] => none
  | c :: rest =>
      if tailFieldAt ((c :: rest).drop (wsRun (c :: rest))) then some 0
      else (nextFieldIdx rest).map (· + 1)

/-- Does `,\s*description:` occur at the head of `u` (the tail of the
title pattern; `description` starts with non-whitespace, so only the
end of the whitespace run can match). -/
def afterCommaDesc (u : List Char) : Bool :=
  match u with
  | ',' :: v => startsWithCI (v.drop (wsRun v)) ("description:".data)
  | _ => false

/-- The lazy group `(.+?)` followed by `,\s*description:`: extend the
capture one (non-line-terminator) character at a time, stopping at the
first position where the delimiter follows. -/
def lazyCapture (acc : List Char) : List Char → Option (List Char)
  | [] => none
  | c :: rest =>
      if c = '\n' || c = '\r' then none
      else if afterCommaDesc rest then some (acc ++ [c])
      else lazyCapture (acc ++ [c]) rest

/-- The continuation `\s*(.+?),\s*description:` after the literal
`title:`, with greedy backtracking over the leading `\s*` (maximal
whitespace first). -/
def contTitleAux (p : List Char) : Nat → Option (List Char)
  | 0 => lazyCapture [] p
  | k + 1 =>
      match lazyCapture [] (p.drop (k + 1)) with
      | some cap => some cap
      | none => contTitleAux p k

/-- Run the title continuation with the whitespace run after
`title:`. -/
def contTitle (p : List Char) : Option (List Char) :=
  contTitleAux p (wsRun p)

/-- One anchored attempt of `/(?:q:\s*)?title:\s*(.+?),\s*description:/i`:
first with the optional `q:` group, then without it. -/
def titleMatchAt (t : List Char) : Option (List Char) :=
  (if startsWithCI t ("q:".data) then
    (fun afterQ =>
      if startsWithCI (afterQ.drop (wsRun afterQ)) ("title:".data) then
        contTitle ((afterQ.drop (wsRun afterQ)).drop 6)
      else none) (t.drop 2)
  else none).orElse fun _ =>
    if startsWithCI t ("title:".data) then contTitle (t.drop 6) else none

/-- Leftmost match of the title pattern over the text. -/
def titleMatchScan : List Char → Option (List Char)
  | [] => none
  | c :: rest =>
      match titleMatchAt (c :: rest) with
      | some cap => some cap
      | none => titleMatchScan rest

/-- The description extraction of `parseAncillaryData`: the text after
the first `description:`, cut at `market_id:` when that occurs, else at
the leftmost of `res_data:`/`p1:`/`p2:`/`p3:`/`initializer:` (with its
leading whitespace), else end of string; then trimmed. -/
def descriptionOf (text : List Char) : List Char :=
  match indexOfCI ("description:".data) text with
  | none => []
  | some i =>
      (fun afterDesc =>
        match indexOfCI ("market_id:".data) afterDesc with
        | some j => trimChars (afterDesc.take j)
        | none =>
            match nextFieldIdx afterDesc with
            | some j => trimChars (afterDesc.take j)
            | none => trimChars afterDesc) (text.drop (i + 12))

/-- The structured record produced by `parseAncillaryData`: `title` and
`description` default to the empty string; the other fields are omitted
(`none`) when their pattern does not match. -/
structure AncillaryRecord where
  title : String
  description : String
  market_id : Option String
  res_data : Option String
  p1 : Option String
  p2 : Option String
  p3 : Option String
  initializer : Option String
deriving DecidableEq, Repr

/-- Embedding of `parseAncillaryData` (lib/decoder.ts). -/
def parseAncillaryData (decodedText : String) : AncillaryRecord :=
  { title := String.mk (trimChars ((titleMatchScan decodedText.data).getD []))
    description := String.mk (descriptionOf decodedText.data)
    market_id := (fieldMatch ("market_id:".data) decodedText.data).map
      fun l => String.mk (trimChars l)
    res_data := (fieldMatch ("res_data:".data) decodedText.data).map
      fun l => String.mk (trimChars l)
    p1 := (fieldMatch ("p1:".data) decodedText.data).map
      fun l => String.mk (trimChars l)
    p2 := (fieldMatch ("p2:".data) decodedText.data).map
      fun l => String.mk (trimChars l)
    p3 := (fieldMatch ("p3:".data) decodedText.data).map
      fun l => String.mk (trimChars l)
    initializer := (fieldMatch ("initializer:".data) decodedText.data).map
      fun l => String.mk (trimChars l) }

/-- `parseInt(c, 16)` on a single hex digit. -/
def hexDigitVal (c : Char) : Option Nat :=
  if '0' ≤ c ∧ c ≤ '9' then some (c.toNat - 48)
  else if 'a' ≤ c ∧ c ≤ 'f' then some (c.toNat - 87)
  else if 'A' ≤ c ∧ c ≤ 'F' then some (c.toNat - 55)
  else none

/-- The byte loop of `decodeAncillaryData`: two hex digits at a time
(`parseInt` keeps a valid first digit when the second is invalid, and
gives `NaN` otherwise), dropping zero-valued bytes. -/
def hexPairs : List Char → List Nat
  | [] => []
  | [a] =>
      (match hexDigitVal a with
       | some d => if d > 0 then [d] else []
       | none => [])
  | a :: b :: rest =>
      (match hexDigitVal a, hexDigitVal b with
       | some d1, some d2 => if 16 * d1 + d2 > 0 then [16 * d1 + d2] else []
       | some d1, none => if d1 > 0 then [d1] else []
       | none, _ => []) ++ hexPairs rest

/-- Embedding of `decodeAncillaryData`: strip an optional `0x`, decode
hex pairs, drop zero bytes, and map each byte to its code point (this
models the byte-to-text step exactly for the ASCII payloads the grammar
uses; multi-byte UTF-8 sequences are out of scope of the claims). -/
def decodeAncillaryData (hexData : String) : String :=
  if hexData = "" || hexData = "0x" then ""
  else
    String.mk ((hexPairs
      (match hexData.data with
       | '0' :: 'x' :: rest => rest
       | d => d)).map fun b => Char.ofNat b)

/-! ## Ingestion jobs (lib/polling.ts) -/
/-- A raw upstream event: named arguments (collapsed to their string
value; `none` when absent) plus block and transaction metadata. -/
structure RawEvent where
  Arguments : List (String × Option String)
  Block_Time : String
  Block_Number : Nat
  Transaction_Hash : String
deriving DecidableEq, Repr

/-- Embedding of `getArgumentValue` (lib/bitquery.ts): the value of the
named argument, with JavaScript falsiness collapsing an empty or absent
value to `null`. -/
def getArgumentValue (args : List (String × Option String)) (nm : String) :
    Option String :=
  match args.find? fun a => a.1 = nm with
  | none => none
  | some a =>
      match a.2 with
      | none => none
      | some v => if v = "" then none else some v

/-- The token-registration row built from a raw event (token0/token1
may be absent — `token0 || undefined` in the source). -/
def tokenRegRowOfEvent (e : RawEvent) (cid : String) : TokenRegRow :=
  { condition_id := cid
    token0 := getArgumentValue e.Arguments "token0"
    token1 := getArgumentValue e.Arguments "token1"
    block_time := e.Block_Time
    block_number := e.Block_Number
    transaction_hash := e.Transaction_Hash }

/-- The per-event loop of `processTokenRegisteredEvents`: insert when
`conditionId` is present, else count a skip; the batch is never
aborted. -/
def tokenRegLoop : List TokenRegRow → Nat → Nat → List RawEvent →
    List TokenRegRow × Nat × Nat
  | st, count, skipped, [] => (st, count, skipped)
  | st, count, skipped, e :: rest =>
      match getArgumentValue e.Arguments "conditionId" with
      | some cid =>
          tokenRegLoop (insertTokenRegisteredEvent st (tokenRegRowOfEvent e cid))
            (count + 1) skipped rest
      | none => tokenRegLoop st count (skipped + 1) rest

/-- Embedding of `processTokenRegisteredEvents`: the whole body is
wrapped in try/catch — a fetch failure is logged and the function
returns 0, so no error ever escapes to the scheduler. -/
def processTokenRegisteredEvents (fetched : Except String (List RawEvent))
    (st : List TokenRegRow) : Except String (List TokenRegRow × Nat) :=
  match fetched with
  | Except.error _ => Except.ok (st, 0)
  | Except.ok events =>
      Except.ok ((tokenRegLoop st 0 0 events).1, (tokenRegLoop st 0 0 events).2.1)

/-- The question row built from a raw event; when `ancillaryData` is
present it is decoded and parsed and the structured record's rendering
is stored alongside the raw hex. -/
def questionRowOfEvent (e : RawEvent) (qid : String) : QuestionRow :=
  { question_id := qid
    request_timestamp := getArgumentValue e.Arguments "requestTimestamp"
    creator := getArgumentValue e.Arguments "creator"
    ancillary_data := getArgumentValue e.Arguments "ancillaryData"
    ancillary_data_decoded := (getArgumentValue e.Arguments "ancillaryData").map
      fun h => reprStr (parseAncillaryData (decodeAncillaryData h))
    reward_token := getArgumentValue e.Arguments "rewardToken"
    reward := getArgumentValue e.Arguments "reward"
    proposal_bond := getArgumentValue e.Arguments "proposalBond"
    block_time := e.Block_Time
    block_number := e.Block_Number
    transaction_hash := e.Transaction_Hash }

/-- The per-event loop of `processQuestionInitializedEvents`. -/
def questionLoop : List QuestionRow → Nat → Nat → List RawEvent →
    List QuestionRow × Nat × Nat
  | st, count, skipped, [] => (st, count, skipped)
  | st, count, skipped, e :: rest =>
      match getArgumentValue e.Arguments "questionID" with
      | some qid =>
          questionLoop (insertQuestionInitializedEvent st (questionRowOfEvent e qid))
            (count + 1) skipped rest
      | none => questionLoop st count (skipped + 1) rest

/-- Embedding of `processQuestionInitializedEvents`, with the same
catch-everything error handling. -/
def processQuestionInitializedEvents (fetched : Except String (List RawEvent))
    (st : List QuestionRow) : Except String (List QuestionRow × Nat) :=
  match fetched with
  | Except.error _ => Except.ok (st, 0)
  | Except.ok events =>
      Except.ok ((questionLoop st 0 0 events).1, (questionLoop st 0 0 events).2.1)

/-- One step of the store fold for token-registration events. -/
def tokenRegStep (acc : List TokenRegRow) (e : RawEvent) : List TokenRegRow :=
  match getArgumentValue e.Arguments "conditionId" with
  | some cid => insertTokenRegisteredEvent acc (tokenRegRowOfEvent e cid)
  | none => acc

/-- One step of the store fold for question-initialization events. -/
def questionStep (acc : List QuestionRow) (e : RawEvent) : List QuestionRow :=
  match getArgumentValue e.Arguments "questionID" with
  | some qid => insertQuestionInitializedEvent acc (questionRowOfEvent e qid)
  | none => acc

/-! ## Lemmas for the ancillary field parser -/
/-- No character of the list case-folds to a colon. -/
def colonFree (l : List Char) : Bool := l.all fun c => !(c.toLower = ':')

/-- The character class of the quantified ancillary chunks: letters,
digits, space and harmless punctuation — in particular nothing that
case-folds to the colon or comma of a `key:` delimiter, so a chunk can
never contain or complete one (the last two conjuncts are redundant for
the listed characters and only make that fact definitional). -/
def plainChar (c : Char) : Bool :=
  (c.isAlpha || c.isDigit || c = ' ' || c = '?' || c = '.' || c = '!' ||
    c = '$' || c = '%' || c = '-' || c = '\'') &&
    !(c.toLower = ':') && !(c.toLower = ',')

/-- A chunk usable as a quantified title/description/field value:
nonempty plain text, not starting or ending with whitespace. -/
def chunkOk (l : List Char) : Bool :=
  !l.isEmpty && l.all plainChar &&
    (match l with
     | [] => true
     | c :: _ => !isWS c) &&
    !(isWS (l.getLastD 'x'))

/-- No character of the pattern case-folds to a comma (true of every
field key of the parser). -/
def commaSafe (K : List Char) : Bool := K.all fun k => !(k.toLower = ',')

/-- A mismatch between window and pattern at some offset lying inside
BOTH concrete lists — such a window can never begin a match, whatever
follows it. -/
def hasMismatch (w K : List Char) : Bool :=
  (List.range (min w.length K.length)).any fun j => !(ciEq (w.getD j ' ') (K.getD j ' '))

/-- Every suffix of `pre` mismatches the pattern inside `pre` itself, so
a scan for `K` can skip past `pre` entirely. -/
def preSkips (pre K : List Char) : Bool :=
  (List.range pre.length).all fun i => hasMismatch (pre.drop i) K

theorem lowerStr_empty_iff (s : String) : lowerStr s = "" ↔ s = "" := by
  cases s with
  | mk l =>
      cases l with
      | nil => simp [lowerStr]
      | cons c cs => simp [lowerStr, String.ext_iff]

theorem quoteClass_empty : quoteClass "" = false := by decide

theorem sideMatch_eq_spec (a : String) (t0 t1 : Option String)
    (h0 : t0 ≠ some "") (h1 : t1 ≠ some "") :
    sideMatchCode (normalizeId a) (normalizeOptId t0) (normalizeOptId t1) =
      specSideMatches a t0 t1 := by
  have eqTok : ∀ t : Option String, t ≠ some "" → ∀ x : String,
      (decide (some (lowerStr x) = normalizeOptId t) : Bool) = eqOptToken x t := by
    intro t ht x
    cases t with
    | none => simp [normalizeOptId, eqOptToken]
    | some v =>
        have hv : v ≠ "" := fun h => ht (by rw [h])
        simp [normalizeOptId, eqOptToken, hv, Option.some.injEq]
  have eqUsdc : ∀ t : Option String, t ≠ some "" →
      optIsUSDC (normalizeOptId t) = optQuoteClass t := by
    intro t ht
    cases t with
    | none => rfl
    | some v =>
        have hv : v ≠ "" := fun h => ht (by rw [h])
        simp [normalizeOptId, optIsUSDC, optQuoteClass, hv, quoteClass]
  by_cases ha : a = ""
  · subst ha
    have z0 : eqOptToken "" t0 = false := by
      cases t0 with
      | none => rfl
      | some v =>
          have hv : v ≠ "" := fun h => h0 (by rw [h])
          simp only [eqOptToken, decide_eq_false_iff_not]
          intro h
          exact hv ((lowerStr_empty_iff v).1 h.symm)
    have z1 : eqOptToken "" t1 = false := by
      cases t1 with
      | none => rfl
      | some v =>
          have hv : v ≠ "" := fun h => h1 (by rw [h])
          simp only [eqOptToken, decide_eq_false_iff_not]
          intro h
          exact hv ((lowerStr_empty_iff v).1 h.symm)
    simp [sideMatchCode, normalizeId, specSideMatches, z0, z1, quoteClass_empty]
  · simp only [sideMatchCode, normalizeId, if_neg ha, specSideMatches]
    rw [eqTok t0 h0 a, eqTok t1 h1 a, eqUsdc t0 h0, eqUsdc t1 h1]
    have : optIsUSDC (some (lowerStr a)) = quoteClass a := by
      simp [optIsUSDC, quoteClass]
    rw [this]

/-- Claim C1: the trade-matching predicate agrees with the specified
side-matching rule (direct token match, or quote-currency sentinel
guarded by the market itself trading against quote currency), provided
the market token identifiers are not the empty string. -/
theorem C1_trade_match_iff (trade : Trade) (token0 token1 : Option String)
    (h0 : token0 ≠ some "") (h1 : token1 ≠ some "") :
    doesTradeMatchTokens trade token0 token1 = specTradeMatches trade token0 token1 := by
  by_cases hguard : (strTruthy token0 || strTruthy token1) = true
  · simp only [doesTradeMatchTokens, hguard, Bool.not_true, Bool.false_eq_true, if_false,
      specTradeMatches]
    rw [sideMatch_eq_spec trade.maker_asset_id token0 token1 h0 h1,
      sideMatch_eq_spec trade.taker_asset_id token0 token1 h0 h1]
  · have h0' : token0 = none := by
      cases token0 with
      | none => rfl
      | some t =>
          exfalso
          have ht : t ≠ "" := fun h => h0 (by rw [h])
          simp [strTruthy, ht] at hguard
    have h1' : token1 = none := by
      cases token1 with
      | none => rfl
      | some t =>
          exfalso
          have ht : t ≠ "" := fun h => h1 (by rw [h])
          simp [strTruthy, ht] at hguard
    subst h0' h1'
    simp [doesTradeMatchTokens, specTradeMatches, specSideMatches, strTruthy,
      optQuoteClass, eqOptToken]

/-- Claim C1 witness: the quote-currency guard on the market
`token0 = "555"`, `token1 = "777"` — the trade `(maker "0", taker "999")`
does not match, the trade `(maker "0", taker "555")` does, and the
matcher agrees with the specified rule on the first trade. -/
theorem C1_trade_match_iff_witness :
    doesTradeMatchTokens ⟨"0", "999", some 1, some 1, 0⟩ (some "555") (some "777") =
      specTradeMatches ⟨"0", "999", some 1, some 1, 0⟩ (some "555") (some "777") ∧
    doesTradeMatchTokens ⟨"0", "999", some 1, some 1, 0⟩ (some "555") (some "777") = false ∧
    doesTradeMatchTokens ⟨"0", "555", some 1, some 1, 0⟩ (some "555") (some "777") = true :=
  ⟨C1_trade_match_iff ⟨"0", "999", some 1, some 1, 0⟩ (some "555") (some "777")
      (by decide) (by decide),
    by decide, by decide⟩

theorem mem_insertDesc (t x : Trade) (l : List Trade) :
    x ∈ insertDesc t l ↔ x = t ∨ x ∈ l := by
  induction l with
  | nil => simp [insertDesc]
  | cons u us ih =>
      by_cases h : t.block_time ≤ u.block_time
      · simp only [insertDesc, if_pos h, List.mem_cons, ih]
        tauto
      · simp only [insertDesc, if_neg h, List.mem_cons]

theorem sortedDesc_insertDesc (t : Trade) (l : List Trade) (h : SortedDesc l) :
    SortedDesc (insertDesc t l) := by
  induction l with
  | nil => simp [insertDesc, SortedDesc]
  | cons u us ih =>
      have hu : ∀ x ∈ us, x.block_time ≤ u.block_time := (List.pairwise_cons.1 h).1
      have hus : SortedDesc us := (List.pairwise_cons.1 h).2
      by_cases hle : t.block_time ≤ u.block_time
      · simp only [SortedDesc, insertDesc, if_pos hle]
        refine List.Pairwise.cons ?_ (ih hus)
        intro x hx
        rcases (mem_insertDesc t x us).1 hx with rfl | hxus
        · exact hle
        · exact hu x hxus
      · simp only [SortedDesc, insertDesc, if_neg hle]
        refine List.Pairwise.cons ?_ (List.Pairwise.cons hu hus)
        intro x hx
        rcases List.mem_cons.1 hx with rfl | hxus
        · exact Nat.le_of_lt (Nat.lt_of_not_le hle)
        · exact Nat.le_trans (hu x hxus) (Nat.le_of_lt (Nat.lt_of_not_le hle))

theorem mem_sortAux (l acc : List Trade) (x : Trade) :
    x ∈ l.foldl (fun acc t => insertDesc t acc) acc ↔ x ∈ acc ∨ x ∈ l := by
  induction l generalizing acc with
  | nil => simp
  | cons t ts ih =>
      simp only [List.foldl_cons, ih, mem_insertDesc, List.mem_cons]
      tauto

theorem sorted_sortAux (l acc : List Trade) (h : SortedDesc acc) :
    SortedDesc (l.foldl (fun acc t => insertDesc t acc) acc) := by
  induction l generalizing acc with
  | nil => exact h
  | cons t ts ih => exact ih _ (sortedDesc_insertDesc t acc h)

theorem mem_sortByTimeDesc (l : List Trade) (x : Trade) :
    x ∈ sortByTimeDesc l ↔ x ∈ l := by
  simp [sortByTimeDesc, mem_sortAux]

theorem sorted_sortByTimeDesc (l : List Trade) : SortedDesc (sortByTimeDesc l) :=
  sorted_sortAux l [] (by simp [SortedDesc])

theorem normalizeId_eq_of_lower (a b : String) (h : lowerStr a = lowerStr b) :
    normalizeId a = normalizeId b := by
  by_cases ha : a = ""
  · subst ha
    have hb : b = "" := (lowerStr_empty_iff b).1 (by rw [← h]; rfl)
    subst hb
    rfl
  · have hb : b ≠ "" := by
      intro hb
      subst hb
      exact ha ((lowerStr_empty_iff a).1 (by rw [h]; rfl))
    simp [normalizeId, ha, hb, h]

theorem priceOf_some_elim (tokenId : String) (t : Trade) (p : ℚ)
    (h : priceOfTrade tokenId t = some p) :
    0 < p ∧ tradeInvolvesToken tokenId t = true := by
  rcases hm : t.maker_amount_filled with _ | m
  · simp [priceOfTrade, hm] at h
  rcases hk : t.taker_amount_filled with _ | k
  · simp [priceOfTrade, hm, hk] at h
  simp only [priceOfTrade, hm, hk] at h
  by_cases hz : (m / 1000000 : ℚ) = 0 ∨ (k / 1000000 : ℚ) = 0
  · rw [if_pos hz] at h
    cases h
  rw [if_neg hz] at h
  by_cases c1 : (isUSDC t.maker_asset_id &&
      decide (lowerStr t.taker_asset_id = lowerStr tokenId)) = true
  · rw [if_pos c1] at h
    simp only [posOnly] at h
    by_cases hp : (0 : ℚ) < m / 1000000 / (k / 1000000)
    · rw [if_pos hp] at h
      have hpe : p = m / 1000000 / (k / 1000000) := (Option.some.inj h).symm
      refine ⟨hpe ▸ hp, ?_⟩
      have hand := c1
      rw [Bool.and_eq_true] at hand
      have husdc : isUSDC t.maker_asset_id = true := hand.1
      have htok : lowerStr t.taker_asset_id = lowerStr tokenId :=
        of_decide_eq_true hand.2
      have hnorm : normalizeId t.taker_asset_id = normalizeId tokenId :=
        normalizeId_eq_of_lower _ _ htok
      simp [tradeInvolvesToken, hnorm, husdc]
    · rw [if_neg hp] at h
      cases h
  · rw [if_neg c1] at h
    by_cases c2 : (isUSDC t.taker_asset_id &&
        decide (lowerStr t.maker_asset_id = lowerStr tokenId)) = true
    · rw [if_pos c2] at h
      simp only [posOnly] at h
      by_cases hp : (0 : ℚ) < k / 1000000 / (m / 1000000)
      · rw [if_pos hp] at h
        have hpe : p = k / 1000000 / (m / 1000000) := (Option.some.inj h).symm
        refine ⟨hpe ▸ hp, ?_⟩
        have hand := c2
        rw [Bool.and_eq_true] at hand
        have husdc : isUSDC t.taker_asset_id = true := hand.1
        have htok : lowerStr t.maker_asset_id = lowerStr tokenId :=
          of_decide_eq_true hand.2
        have hnorm : normalizeId t.maker_asset_id = normalizeId tokenId :=
          normalizeId_eq_of_lower _ _ htok
        simp [tradeInvolvesToken, hnorm, husdc]
      · rw [if_neg hp] at h
        cases h
    · rw [if_neg c2] at h
      simp [posOnly] at h

theorem collectPrices_nil_iff (tokenId : String) (l : List Trade) :
    (collectPrices tokenId l).1 = [] ↔ ∀ t ∈ l, priceOfTrade tokenId t = none := by
  induction l with
  | nil => simp [collectPrices]
  | cons t rest ih =>
      rcases hp : priceOfTrade tokenId t with _ | p
      · simp [collectPrices, hp, ih]
      · simp only [collectPrices, hp]
        constructor
        · intro habs
          cases habs
        · intro hall
          have h2 := hall t (List.mem_cons_self t rest)
          rw [hp] at h2
          cases h2

theorem collectPrices_head (tokenId : String) (l : List Trade) (hs : SortedDesc l)
    (p : ℚ) (ps : List ℚ) (h : (collectPrices tokenId l).1 = p :: ps) :
    ∃ t, t ∈ l ∧ priceOfTrade tokenId t = some p ∧
      (collectPrices tokenId l).2 = some t.block_time ∧
      ∀ u ∈ l, (priceOfTrade tokenId u).isSome → u.block_time ≤ t.block_time := by
  induction l with
  | nil => simp [collectPrices] at h
  | cons t rest ih =>
      have hrest : SortedDesc rest := (List.pairwise_cons.1 hs).2
      have hhead : ∀ x ∈ rest, x.block_time ≤ t.block_time := (List.pairwise_cons.1 hs).1
      rcases hp : priceOfTrade tokenId t with _ | q
      · have h' : (collectPrices tokenId rest).1 = p :: ps := by
          rw [← h]
          simp [collectPrices, hp]
        rcases ih hrest h' with ⟨w, hwmem, hwp, hwt, hwmax⟩
        refine ⟨w, List.mem_cons_of_mem _ hwmem, hwp, ?_, ?_⟩
        · rw [← hwt]
          simp [collectPrices, hp]
        · intro u hu hus
          rcases List.mem_cons.1 hu with rfl | humem
          · rw [hp] at hus
            cases hus
          · exact hwmax u humem hus
      · have hq : q = p := by
          have h2 := h
          simp [collectPrices, hp] at h2
          exact h2.1
        subst hq
        refine ⟨t, List.mem_cons_self t rest, hp, ?_, ?_⟩
        · simp [collectPrices, hp]
        · intro u hu hus
          rcases List.mem_cons.1 hu with rfl | humem
          · exact Nat.le_refl _
          · exact hhead u humem

theorem calcTokenPrice_spec (trades : List Trade) (tokenId : String) :
    (calculateTokenPrice trades tokenId = none ↔
      ∀ t ∈ trades, priceOfTrade tokenId t = none) ∧
    (∀ info, calculateTokenPrice trades tokenId = some info →
      0 < info.price ∧
      info.formatted = qToFixed info.price 4 ++ " USDC" ∧
      info.formattedCents = qToFixed (info.price * 100) 1 ++ "¢" ∧
      ∃ t, t ∈ trades ∧ priceOfTrade tokenId t = some info.price ∧
        info.lastTradeTime = some t.block_time ∧
        ∀ u ∈ trades, (priceOfTrade tokenId u).isSome → u.block_time ≤ t.block_time) := by
  have memS : ∀ x, x ∈ sortByTimeDesc (trades.filter (tradeInvolvesToken tokenId)) ↔
      x ∈ trades ∧ tradeInvolvesToken tokenId x = true := by
    intro x
    rw [mem_sortByTimeDesc, List.mem_filter]
  constructor
  · constructor
    · intro h t ht
      rcases hp : priceOfTrade tokenId t with _ | p
      · rfl
      exfalso
      have hinv : tradeInvolvesToken tokenId t = true := (priceOf_some_elim _ _ _ hp).2
      have htF : t ∈ trades.filter (tradeInvolvesToken tokenId) :=
        List.mem_filter.2 ⟨ht, hinv⟩
      have hF : (trades.filter (tradeInvolvesToken tokenId)).length ≠ 0 := by
        intro hlen
        rw [List.length_eq_zero] at hlen
        rw [hlen] at htF
        cases htF
      simp only [calculateTokenPrice] at h
      rw [if_neg hF] at h
      rcases hC : (collectPrices tokenId
          (sortByTimeDesc (trades.filter (tradeInvolvesToken tokenId)))).1 with _ | ⟨q, qs⟩
      · have hnone : priceOfTrade tokenId t = none :=
          (collectPrices_nil_iff _ _).1 hC t ((memS t).2 ⟨ht, hinv⟩)
        rw [hp] at hnone
        cases hnone
      · rw [hC] at h
        simp at h
    · intro hall
      by_cases hF : (trades.filter (tradeInvolvesToken tokenId)).length = 0
      · simp only [calculateTokenPrice]
        rw [if_pos hF]
      · simp only [calculateTokenPrice]
        rw [if_neg hF]
        have hC : (collectPrices tokenId
            (sortByTimeDesc (trades.filter (tradeInvolvesToken tokenId)))).1 = [] := by
          apply (collectPrices_nil_iff _ _).2
          intro t ht
          exact hall t ((memS t).1 ht).1
        rw [hC]
  · intro info h
    by_cases hF : (trades.filter (tradeInvolvesToken tokenId)).length = 0
    · simp only [calculateTokenPrice] at h
      rw [if_pos hF] at h
      cases h
    simp only [calculateTokenPrice] at h
    rw [if_neg hF] at h
    rcases hC : (collectPrices tokenId
        (sortByTimeDesc (trades.filter (tradeInvolvesToken tokenId)))).1 with _ | ⟨q, qs⟩
    · rw [hC] at h
      cases h
    rw [hC] at h
    simp only [Option.some.injEq] at h
    rcases collectPrices_head tokenId _
        (sorted_sortByTimeDesc (trades.filter (tradeInvolvesToken tokenId))) q qs hC with
      ⟨t, htmem, htp, htt, htmax⟩
    have hprice : info.price = q := by rw [← h]
    have hfmt : info.formatted = qToFixed q 4 ++ " USDC" := by rw [← h]
    have hfmtc : info.formattedCents = qToFixed (q * 100) 1 ++ "¢" := by rw [← h]
    have hlast : info.lastTradeTime = (collectPrices tokenId
        (sortByTimeDesc (trades.filter (tradeInvolvesToken tokenId)))).2 := by rw [← h]
    refine ⟨hprice ▸ (priceOf_some_elim _ _ _ htp).1, ?_, ?_, t, ((memS t).1 htmem).1,
        hprice ▸ htp, ?_, ?_⟩
    · rw [hfmt, hprice]
    · rw [hfmtc, hprice]
    · rw [hlast, htt]
    · intro u hu hus
      have hinvu : tradeInvolvesToken tokenId u = true := by
        rcases Option.isSome_iff_exists.1 hus with ⟨pu, hpu⟩
        exact (priceOf_some_elim _ _ _ hpu).2
      exact htmax u ((memS u).2 ⟨hu, hinvu⟩) hus

theorem isUSDC_eq_quoteClass (s : String) : isUSDC s = quoteClass s := by
  by_cases hs : s = ""
  · subst hs
    decide
  · simp only [isUSDC, if_neg hs, quoteClass, usdcValues]
    simp [List.contains_cons, Bool.or_assoc]

theorem priceOf_eq_specTradePrice (tokenId : String) (t : Trade)
    (h : amountsOk t = true) : priceOfTrade tokenId t = specTradePrice tokenId t := by
  rcases hm : t.maker_amount_filled with _ | m
  · rw [priceOfTrade, specTradePrice, hm]
  rcases hk : t.taker_amount_filled with _ | k
  · rw [priceOfTrade, specTradePrice, hm, hk]
  have h0m : (0 : ℚ) ≤ m := by
    rw [amountsOk, hm] at h
    exact of_decide_eq_true (Bool.and_eq_true _ _ ▸ h).1
  have h0k : (0 : ℚ) ≤ k := by
    rw [amountsOk, hk] at h
    exact of_decide_eq_true (Bool.and_eq_true _ _ ▸ h).2
  simp only [priceOfTrade, specTradePrice, hm, hk]
  by_cases hz : (m / 1000000 : ℚ) = 0 ∨ (k / 1000000 : ℚ) = 0
  · rw [if_pos hz, if_pos hz]
  rw [if_neg hz, if_neg hz]
  push_neg at hz
  have hmn : (0 : ℚ) ≤ m / 1000000 := div_nonneg h0m (by norm_num)
  have hkn : (0 : ℚ) ≤ k / 1000000 := div_nonneg h0k (by norm_num)
  have hmpos : (0 : ℚ) < m / 1000000 := by
    rcases lt_or_eq_of_le hmn with h' | h'
    · exact h'
    · exact absurd h'.symm hz.1
  have hkpos : (0 : ℚ) < k / 1000000 := by
    rcases lt_or_eq_of_le hkn with h' | h'
    · exact h'
    · exact absurd h'.symm hz.2
  rw [isUSDC_eq_quoteClass, isUSDC_eq_quoteClass]
  by_cases c1 : (quoteClass t.maker_asset_id &&
      decide (lowerStr t.taker_asset_id = lowerStr tokenId)) = true
  · simp [c1, posOnly, div_pos hmpos hkpos]
  · by_cases c2 : (quoteClass t.taker_asset_id &&
        decide (lowerStr t.maker_asset_id = lowerStr tokenId)) = true
    · simp [c1, c2, posOnly, div_pos hkpos hmpos]
    · simp [c1, c2, posOnly]

/-- Claim C10: the per-token price calculation returns `none` exactly
when no trade yields a valid positive price for the token against the
quote currency; a non-`none` result carries a strictly positive price,
and its `lastTradeTime` is the block time of the trade that produced the
reported price, which is most recent among all price-yielding trades. -/
theorem C10_token_price_positive_latest (trades : List Trade) (tokenId : String) :
    (calculateTokenPrice trades tokenId = none ↔
      ∀ t ∈ trades, priceOfTrade tokenId t = none) ∧
    (∀ info, calculateTokenPrice trades tokenId = some info →
      0 < info.price ∧
      ∃ t, t ∈ trades ∧ priceOfTrade tokenId t = some info.price ∧
        info.lastTradeTime = some t.block_time ∧
        ∀ u ∈ trades, (priceOfTrade tokenId u).isSome → u.block_time ≤ t.block_time) := by
  refine ⟨(calcTokenPrice_spec trades tokenId).1, ?_⟩
  intro info h
  rcases (calcTokenPrice_spec trades tokenId).2 info h with ⟨hpos, _, _, hex⟩
  exact ⟨hpos, hex⟩

section
attribute [local semireducible] Rat.mul Rat.inv Rat.add Rat.sub

/-- Claim C10 witness: on two USDC-vs-token-200 trades (price 0.40 at
time 1, price 0.55 at time 2) the calculator reports the positive price
11/20 with `lastTradeTime` 2. -/
theorem C10_token_price_positive_latest_witness :
    0 < (⟨11 / 20, "0.5500 USDC", "55.0¢", some 2⟩ : PriceInfo).price ∧
    ∃ t, t ∈ [(⟨"0", "200", some 40, some 100, 1⟩ : Trade),
        ⟨"0", "200", some 55, some 100, 2⟩] ∧
      priceOfTrade "200" t =
        some (⟨11 / 20, "0.5500 USDC", "55.0¢", some 2⟩ : PriceInfo).price ∧
      (⟨11 / 20, "0.5500 USDC", "55.0¢", some 2⟩ : PriceInfo).lastTradeTime =
        some t.block_time ∧
      ∀ u ∈ [(⟨"0", "200", some 40, some 100, 1⟩ : Trade),
          ⟨"0", "200", some 55, some 100, 2⟩],
        (priceOfTrade "200" u).isSome → u.block_time ≤ t.block_time :=
  (C10_token_price_positive_latest
      [⟨"0", "200", some 40, some 100, 1⟩, ⟨"0", "200", some 55, some 100, 2⟩] "200").2
    ⟨11 / 20, "0.5500 USDC", "55.0¢", some 2⟩ (by decide)

end

/-- Claim C4: with nonnegative (unsigned on-chain) amounts, the reported
price is the price of the most recent trade pairing the token against
quote currency with nonzero numeric amounts, computed as quote amount
over token amount after dividing both raw amounts by `10^6`; the result
is `none` exactly when no such trade exists (not an average), and the
output strings are the 4-fractional-digit USDC rendering and the
`price * 100` 1-fractional-digit cents rendering. -/
theorem C4_latest_price_reported (trades : List Trade) (tokenId : String)
    (hnn : ∀ t ∈ trades, amountsOk t = true) :
    (calculateTokenPrice trades tokenId = none ↔
      ∀ t ∈ trades, specTradePrice tokenId t = none) ∧
    (∀ info, calculateTokenPrice trades tokenId = some info →
      info.formatted = qToFixed info.price 4 ++ " USDC" ∧
      info.formattedCents = qToFixed (info.price * 100) 1 ++ "¢" ∧
      ∃ t, t ∈ trades ∧ specTradePrice tokenId t = some info.price ∧
        info.lastTradeTime = some t.block_time ∧
        ∀ u ∈ trades, (specTradePrice tokenId u).isSome → u.block_time ≤ t.block_time) := by
  constructor
  · rw [(calcTokenPrice_spec trades tokenId).1]
    constructor
    · intro h t ht
      rw [← priceOf_eq_specTradePrice tokenId t (hnn t ht)]
      exact h t ht
    · intro h t ht
      rw [priceOf_eq_specTradePrice tokenId t (hnn t ht)]
      exact h t ht
  · intro info h
    rcases (calcTokenPrice_spec trades tokenId).2 info h with
      ⟨_, hfmt, hfmtc, t, htmem, htp, htt, htmax⟩
    refine ⟨hfmt, hfmtc, t, htmem, ?_, htt, ?_⟩
    · rw [← priceOf_eq_specTradePrice tokenId t (hnn t htmem)]
      exact htp
    · intro u hu hus
      apply htmax u hu
      rw [priceOf_eq_specTradePrice tokenId u (hnn u hu)]
      exact hus

section
attribute [local semireducible] Rat.mul Rat.inv Rat.add Rat.sub

/-- Claim C4 witness: two trades of the market token `"200"` against
USDC at prices 0.40 (time 1) and 0.55 (time 2); the reported price is
the later 0.55 with renderings `"0.5500 USDC"` and `"55.0¢"`, and it is
not the average 0.475 of the two collected prices. -/
theorem C4_latest_price_reported_witness :
    (∀ t ∈ [(⟨"0", "200", some 40, some 100, 1⟩ : Trade),
        ⟨"0", "200", some 55, some 100, 2⟩], amountsOk t = true) ∧
    calculateTokenPrice
        [⟨"0", "200", some 40, some 100, 1⟩, ⟨"0", "200", some 55, some 100, 2⟩] "200" =
      some ⟨11 / 20, "0.5500 USDC", "55.0¢", some 2⟩ ∧
    (11 / 20 : ℚ) ≠ (40 / 100 + 55 / 100) / 2 ∧
    (∀ info, calculateTokenPrice
        [(⟨"0", "200", some 40, some 100, 1⟩ : Trade),
          ⟨"0", "200", some 55, some 100, 2⟩] "200" = some info →
      info.formatted = qToFixed info.price 4 ++ " USDC" ∧
      info.formattedCents = qToFixed (info.price * 100) 1 ++ "¢" ∧
      ∃ t, t ∈ [(⟨"0", "200", some 40, some 100, 1⟩ : Trade),
          ⟨"0", "200", some 55, some 100, 2⟩] ∧
        specTradePrice "200" t = some info.price ∧
        info.lastTradeTime = some t.block_time ∧
        ∀ u ∈ [(⟨"0", "200", some 40, some 100, 1⟩ : Trade),
            ⟨"0", "200", some 55, some 100, 2⟩],
          (specTradePrice "200" u).isSome → u.block_time ≤ t.block_time) :=
  ⟨by decide, by decide, by decide,
    (C4_latest_price_reported
        [⟨"0", "200", some 40, some 100, 1⟩, ⟨"0", "200", some 55, some 100, 2⟩] "200"
        (by decide)).2⟩

end

section
attribute [local semireducible] Rat.mul Rat.inv Rat.add Rat.sub

/-- Claim C8 counterexample: with outcome labels `p1 = "A"`,
`p2 = "B"` no reliable YES/NO mapping exists, yet the calculator does
not leave both results null: it defaults token1 to YES and reports a
price for it from the single USDC-vs-token-6 trade. -/
theorem C8_no_mapping_counterexample :
    labelIsNo "A" = false ∧ labelIsYes "A" = false ∧
    labelIsNo "B" = false ∧ labelIsYes "B" = false ∧
    (calculateMarketPrices [⟨"0", "6", some 55, some 100, 1⟩]
        (some "5") (some "6") "A" "B").yesPrice ≠ none := by
  refine ⟨by decide, by decide, by decide, by decide, by decide⟩

end

/-- Claim C8 (amended): if `p1` normalizes to No/0 and `p2` to Yes/1,
token0 is mapped to NO and token1 to YES; if `p1` does not normalize to
No/0 but `p2` normalizes to Yes/1, token0 is YES exactly when `p1`
normalizes to Yes/1; in every other case — including when no label
gives a reliable mapping — the calculator defaults to token0 = NO and
token1 = YES and still computes prices for the mapped tokens; a mapped
price is null exactly when the mapped token is absent or empty or no
trade yields a valid positive price for it. -/
theorem C8_label_mapping (trades : List Trade) (token0 token1 : Option String)
    (p1 p2 : String) :
    ((labelIsNo p1 && labelIsYes p2) = true →
      (calculateMarketPrices trades token0 token1 p1 p2).token0IsYes = false) ∧
    (labelIsNo p1 = false → labelIsYes p2 = true →
      (calculateMarketPrices trades token0 token1 p1 p2).token0IsYes =
        (lowerStr p1 = "yes" || p1 = "1")) ∧
    (labelIsYes p2 = false →
      (calculateMarketPrices trades token0 token1 p1 p2).token0IsYes = false) ∧
    ((calculateMarketPrices trades token0 token1 p1 p2).yesPrice =
      priceForOptToken trades
        (if (calculateMarketPrices trades token0 token1 p1 p2).token0IsYes
          then token0 else token1)) ∧
    ((calculateMarketPrices trades token0 token1 p1 p2).noPrice =
      priceForOptToken trades
        (if (calculateMarketPrices trades token0 token1 p1 p2).token0IsYes
          then token1 else token0)) ∧
    (∀ tid : String, tid ≠ "" →
      (priceForOptToken trades (some tid) = none ↔
        ∀ t ∈ trades, priceOfTrade tid t = none)) := by
  refine ⟨?_, ?_, ?_, ?_, ?_, ?_⟩
  · intro h
    simp [calculateMarketPrices, h]
  · intro h1 h2
    simp [calculateMarketPrices, h1, h2]
  · intro h
    simp [calculateMarketPrices, h]
  · rfl
  · rfl
  · intro tid htid
    rw [priceForOptToken, if_neg htid]
    exact (calcTokenPrice_spec trades tid).1

/-- Claim C8 witness: for the unmappable labels `"A"`/`"B"` the mapping
conjuncts of `C8_label_mapping` give the default token0 = NO, and the
yes-price equals the price computed for token1. -/
theorem C8_label_mapping_witness :
    (calculateMarketPrices [⟨"0", "6", some 55, some 100, 1⟩]
        (some "5") (some "6") "A" "B").token0IsYes = false ∧
    (calculateMarketPrices [⟨"0", "6", some 55, some 100, 1⟩]
        (some "5") (some "6") "A" "B").yesPrice =
      priceForOptToken [⟨"0", "6", some 55, some 100, 1⟩]
        (if (calculateMarketPrices [⟨"0", "6", some 55, some 100, 1⟩]
            (some "5") (some "6") "A" "B").token0IsYes
          then some "5" else some "6") :=
  ⟨(C8_label_mapping [⟨"0", "6", some 55, some 100, 1⟩] (some "5") (some "6")
      "A" "B").2.2.1 (by decide),
    (C8_label_mapping [⟨"0", "6", some 55, some 100, 1⟩] (some "5") (some "6")
      "A" "B").2.2.2.1⟩

theorem processQueue_fail (id : Nat) (behavior : Nat → Bool) (m : Nat)
    (hfail : ∀ k, k ≤ m → behavior k = false) :
    ∀ n r b, r + n = m →
      processQueue [⟨⟨id, behavior⟩, r, m, b⟩] = specFailTrace id b r n := by
  intro n
  induction n with
  | zero =>
      intro r b hr
      have hb : behavior r = false := hfail r (by omega)
      have hnlt : ¬ r < m := by omega
      simp [processQueue.eq_def, hb, hnlt, specFailTrace]
  | succ n ih =>
      intro r b hr
      have hb : behavior r = false := hfail r (by omega)
      have hlt : r < m := by omega
      simp only [specFailTrace]
      rw [← ih (r + 1) (b * 2) (by omega)]
      conv_lhs => rw [processQueue.eq_def]
      simp [hb, hlt, BACKOFF_MULTIPLIER]

theorem execCount_specFailTrace (id : Nat) :
    ∀ n b r, execCount (specFailTrace id b r n) = n + 1 := by
  intro n
  induction n with
  | zero => intro b r; rfl
  | succ n ih =>
      intro b r
      have h2 := ih (b * 2) (r + 1)
      simp only [execCount] at h2
      simp only [specFailTrace, execCount, List.filter_cons]
      simp [h2]

theorem sleepList_specFailTrace (id : Nat) :
    ∀ n b r, sleepList (specFailTrace id b r n) =
      (List.range n).map fun k => b * 2 ^ k := by
  intro n
  induction n with
  | zero => intro b r; rfl
  | succ n ih =>
      intro b r
      have h2 := ih (b * 2) (r + 1)
      simp only [sleepList] at h2
      simp only [specFailTrace, sleepList, List.filterMap_cons]
      rw [h2]
      rw [List.range_succ_eq_map, List.map_cons, List.map_map]
      simp only [pow_zero, Nat.mul_one]
      congr 1
      apply List.map_congr_left
      intro k _
      simp [Function.comp, pow_succ]
      ring

theorem getLast_specFailTrace (id : Nat) :
    ∀ n b r, (specFailTrace id b r n).getLast? = some (QueueEvent.drop id) := by
  intro n
  induction n with
  | zero => intro b r; rfl
  | succ n ih =>
      intro b r
      have h2 := ih (b * 2) (r + 1)
      simp only [specFailTrace]
      rw [List.getLast?_cons_cons]
      cases hsp : specFailTrace id (b * 2) (r + 1) n with
      | nil => simp [hsp] at h2
      | cons x xs =>
          rw [hsp] at h2
          rw [List.getLast?_cons_cons]
          exact h2

/-- Claim C2: a job enqueued with retry ceiling `m` and initial backoff
`b` that fails on every attempt follows exactly the trace
`specFailTrace`: it is executed exactly `m + 1` times, the sleeps
between consecutive attempts are `b, b*2, b*4, …`, and the trace ends
with the job's permanent drop — no further execution follows. -/
theorem C2_retry_bound (id m b : Nat) (behavior : Nat → Bool)
    (hfail : ∀ k, k ≤ m → behavior k = false) :
    processQueue (enqueueQuery [] ⟨id, behavior⟩ m b) = specFailTrace id b 0 m ∧
    execCount (specFailTrace id b 0 m) = m + 1 ∧
    sleepList (specFailTrace id b 0 m) = ((List.range m).map fun k => b * 2 ^ k) ∧
    (specFailTrace id b 0 m).getLast? = some (QueueEvent.drop id) := by
  refine ⟨?_, execCount_specFailTrace id m b 0, sleepList_specFailTrace id m b 0,
    getLast_specFailTrace id m b 0⟩
  have h := processQueue_fail id behavior m hfail m 0 b (by omega)
  simpa [enqueueQuery] using h

/-- Claim C2 witness: a job (id 5) failing on every attempt, enqueued
with the default ceiling 3 and initial backoff 1000 ms, is executed 4
times with sleeps 1000, 2000, 4000 and then dropped. -/
theorem C2_retry_bound_witness :
    processQueue (enqueueQuery [] ⟨5, fun _ => false⟩ DEFAULT_MAX_RETRIES
        INITIAL_BACKOFF_MS) = specFailTrace 5 INITIAL_BACKOFF_MS 0 DEFAULT_MAX_RETRIES ∧
    execCount (specFailTrace 5 INITIAL_BACKOFF_MS 0 DEFAULT_MAX_RETRIES) =
      DEFAULT_MAX_RETRIES + 1 ∧
    sleepList (specFailTrace 5 INITIAL_BACKOFF_MS 0 DEFAULT_MAX_RETRIES) =
      ((List.range DEFAULT_MAX_RETRIES).map fun k => INITIAL_BACKOFF_MS * 2 ^ k) ∧
    (specFailTrace 5 INITIAL_BACKOFF_MS 0 DEFAULT_MAX_RETRIES).getLast? =
      some (QueueEvent.drop 5) :=
  C2_retry_bound 5 DEFAULT_MAX_RETRIES INITIAL_BACKOFF_MS (fun _ => false)
    (fun _ _ => rfl)

theorem processQueue_succeeds_prefix (id : Nat) (behavior : Nat → Bool) (m : Nat)
    (rest : List QueuedQuery) :
    ∀ k r b, r + k ≤ m → behavior (r + k) = true →
      ∃ pre, processQueue (⟨⟨id, behavior⟩, r, m, b⟩ :: rest) =
          pre ++ processQueue rest ∧
        QueueEvent.complete id ∈ pre ∧
        ∀ e ∈ pre, eventJobId e = none ∨ eventJobId e = some id := by
  intro k
  induction k with
  | zero =>
      intro r b hle hsucc
      rw [Nat.add_zero] at hsucc
      refine ⟨[QueueEvent.exec id r, QueueEvent.complete id], ?_, by simp, ?_⟩
      · conv_lhs => rw [processQueue.eq_def]
        simp [hsucc]
      · intro e he
        rcases List.mem_cons.1 he with rfl | he
        · right; rfl
        rcases List.mem_cons.1 he with rfl | he
        · right; rfl
        · cases he
  | succ k ih =>
      intro r b hle hsucc
      by_cases hb : behavior r = true
      · refine ⟨[QueueEvent.exec id r, QueueEvent.complete id], ?_, by simp, ?_⟩
        · conv_lhs => rw [processQueue.eq_def]
          simp [hb]
        · intro e he
          rcases List.mem_cons.1 he with rfl | he
          · right; rfl
          rcases List.mem_cons.1 he with rfl | he
          · right; rfl
          · cases he
      · have hlt : r < m := by omega
        have hsucc' : behavior (r + 1 + k) = true := by
          have : r + 1 + k = r + (k + 1) := by omega
          rw [this]
          exact hsucc
        rcases ih (r + 1) (b * BACKOFF_MULTIPLIER) (by omega) hsucc' with
          ⟨pre, htrace, hcomplete, hall⟩
        refine ⟨QueueEvent.exec id r :: QueueEvent.sleep b :: pre, ?_,
          List.mem_cons_of_mem _ (List.mem_cons_of_mem _ hcomplete), ?_⟩
        · conv_lhs => rw [processQueue.eq_def]
          simp only [hb, Bool.false_eq_true, if_false, hlt, if_true]
          simp [htrace]
        · intro e he
          rcases List.mem_cons.1 he with rfl | he
          · right; rfl
          rcases List.mem_cons.1 he with rfl | he
          · left; rfl
          · exact hall e he

/-- Claim C3: when job A (which may fail but succeeds within its retry
ceiling) is at the head of the queue and job B is queued behind it, the
drain trace is A's events — ending in A's completion — followed by the
trace of the remaining queue: a failed job is re-inserted at the head,
so A completes fully before B's first execution begins. -/
theorem C3_head_retry_ordering (aid : Nat) (fA : Nat → Bool) (mA bA : Nat)
    (rest : List QueuedQuery)
    (hsucc : ∃ k, k ≤ mA ∧ fA k = true) :
    ∃ pre, processQueue (enqueueQuery [] ⟨aid, fA⟩ mA bA ++ rest) =
        pre ++ processQueue rest ∧
      QueueEvent.complete aid ∈ pre ∧
      (∀ e ∈ pre, eventJobId e = none ∨ eventJobId e = some aid) ∧
      ∀ qb ∈ rest, qb.job.id ≠ aid →
        ∀ a, QueueEvent.exec qb.job.id a ∉ pre := by
  rcases hsucc with ⟨k, hk, hfk⟩
  rcases processQueue_succeeds_prefix aid fA mA rest k 0 bA (by omega)
      (by simpa using hfk) with ⟨pre, htrace, hcomplete, hall⟩
  refine ⟨pre, ?_, hcomplete, hall, ?_⟩
  · simpa [enqueueQuery] using htrace
  · intro qb _ hne a hmem
    rcases hall _ hmem with h | h
    · cases h
    · rw [eventJobId] at h
      exact hne (Option.some.inj h)

/-- Claim C3 witness: job A (id 1) fails its first attempt and succeeds
on the second (within ceiling 3); with job B (id 7) queued behind it,
the trace decomposes as A's events followed by the rest of the queue's
trace, with A's completion in the prefix and no execution of B there. -/
theorem C3_head_retry_ordering_witness :
    ∃ pre, processQueue (enqueueQuery [] ⟨1, fun k => k = 1⟩ 3 1000 ++
          [⟨⟨7, fun _ => true⟩, 0, 3, 1000⟩]) =
        pre ++ processQueue [⟨⟨7, fun _ => true⟩, 0, 3, 1000⟩] ∧
      QueueEvent.complete 1 ∈ pre ∧
      (∀ e ∈ pre, eventJobId e = none ∨ eventJobId e = some 1) ∧
      ∀ qb ∈ [(⟨⟨7, fun _ => true⟩, 0, 3, 1000⟩ : QueuedQuery)], qb.job.id ≠ 1 →
        ∀ a, QueueEvent.exec qb.job.id a ∉ pre :=
  C3_head_retry_ordering 1 (fun k => k = 1) 3 1000
    [⟨⟨7, fun _ => true⟩, 0, 3, 1000⟩] ⟨1, by decide, by decide⟩

theorem insertDedup_idem {α : Type} (dup : α → Bool) (st : List α) (e : α)
    (he : dup e = true) :
    insertDedup dup (insertDedup dup st e) e = insertDedup dup st e := by
  by_cases h : st.any dup = true
  · simp [insertDedup, h]
  · have hin : (insertDedup dup st e).any dup = true := by
      rw [insertDedup, if_neg h, List.any_append]
      simp [he]
    conv_lhs => rw [insertDedup]
    rw [if_pos hin]

theorem insertDedup_pairwise {α : Type} (dup : α → Bool) (R : α → α → Prop)
    (st : List α) (e : α) (himp : ∀ a, dup a = false → R a e)
    (h : st.Pairwise R) : (insertDedup dup st e).Pairwise R := by
  by_cases hany : st.any dup = true
  · simpa [insertDedup, hany] using h
  · have hall : ∀ a ∈ st, dup a = false := by
      intro a ha
      cases hd : dup a with
      | false => rfl
      | true => exact absurd (List.any_eq_true.2 ⟨a, ha, hd⟩) hany
    rw [insertDedup, if_neg hany, List.pairwise_append]
    refine ⟨h, List.pairwise_singleton _ _, ?_⟩
    intro a ha b hb
    rw [List.mem_singleton] at hb
    subst hb
    exact himp a (hall a ha)

theorem applyOp_idem (st : EventStore) (op : StoreOp) :
    applyOp (applyOp st op) op = applyOp st op := by
  cases op with
  | tokenReg e =>
      simp only [applyOp, insertTokenRegisteredEvent]
      rw [insertDedup_idem _ _ _ (by simp)]
  | orderFilled e =>
      simp only [applyOp, insertOrderFilledEvent]
      rw [insertDedup_idem _ _ _ (by simp)]
  | condPrep e =>
      simp only [applyOp, insertConditionPreparationEvent]
      rw [insertDedup_idem _ _ _ (by simp)]
  | questionInit e =>
      simp only [applyOp, insertQuestionInitializedEvent]
      rw [insertDedup_idem _ _ _ (by simp)]

theorem applyOp_inv (st : EventStore) (op : StoreOp) (h : StoreInv st) :
    StoreInv (applyOp st op) := by
  rcases h with ⟨h1, h2, h3, h4⟩
  cases op with
  | tokenReg e =>
      refine ⟨?_, h2, h3, h4⟩
      apply insertDedup_pairwise _ _ _ _ _ h1
      intro a ha
      rw [Bool.and_eq_false_iff] at ha
      rcases ha with ha | ha
      · exact Or.inl (by simpa using ha)
      · exact Or.inr (by simpa using ha)
  | orderFilled e =>
      refine ⟨h1, ?_, h3, h4⟩
      apply insertDedup_pairwise _ _ _ _ _ h2
      intro a ha
      simpa using ha
  | condPrep e =>
      refine ⟨h1, h2, ?_, h4⟩
      apply insertDedup_pairwise _ _ _ _ _ h3
      intro a ha
      simpa using ha
  | questionInit e =>
      refine ⟨h1, h2, h3, ?_⟩
      apply insertDedup_pairwise _ _ _ _ _ h4
      intro a ha
      simpa using ha

theorem foldl_applyOp_inv (ops : List StoreOp) :
    ∀ st : EventStore, StoreInv st → StoreInv (ops.foldl applyOp st) := by
  induction ops with
  | nil => intro st h; exact h
  | cons op rest ih =>
      intro st h
      exact ih _ (applyOp_inv st op h)

/-- Claim C5 counterexample: two token-registration events sharing the
condition id `"c"` but arriving in different transactions are BOTH
stored — the table's key is `(transaction_hash, condition_id)`, not
`condition_id` alone, so inserting a second event with an existing
condition id is not a no-op. -/
theorem C5_tokenpair_key_counterexample :
    (insertTokenRegisteredEvent
        (insertTokenRegisteredEvent [] ⟨"c", some "100", some "200", "t1", 1, "tx1"⟩)
        ⟨"c", some "100", some "200", "t2", 2, "tx2"⟩).length = 2 ∧
    ((insertTokenRegisteredEvent
        (insertTokenRegisteredEvent [] ⟨"c", some "100", some "200", "t1", 1, "tx1"⟩)
        ⟨"c", some "100", some "200", "t2", 2, "tx2"⟩).all
      fun r => r.condition_id = "c") = true := by
  constructor
  · rfl
  · rfl

/-- Claim C5 (amended): with the natural keys actually declared by the
schema — `question_id`, `condition_id`, `(transaction_hash,
condition_id)` for token pairs, `order_hash` — re-delivering any event
to the store is a no-op, and after any sequence of inserts starting
from the empty store each table holds at most one row per key. -/
theorem C5_idempotent_insert :
    (∀ (st : EventStore) (op : StoreOp), applyOp (applyOp st op) op = applyOp st op) ∧
    (∀ ops : List StoreOp, StoreInv (ops.foldl applyOp emptyStore)) := by
  refine ⟨applyOp_idem, ?_⟩
  intro ops
  apply foldl_applyOp_inv
  refine ⟨?_, ?_, ?_, ?_⟩ <;> exact List.Pairwise.nil

theorem tokenRegLoop_spec (events : List RawEvent) :
    ∀ st count skipped,
      tokenRegLoop st count skipped events =
        (events.foldl tokenRegStep st,
          count + (events.filter fun e =>
            (getArgumentValue e.Arguments "conditionId").isSome).length,
          skipped + (events.filter fun e =>
            (getArgumentValue e.Arguments "conditionId").isNone).length) := by
  induction events with
  | nil => intro st count skipped; simp [tokenRegLoop]
  | cons e rest ih =>
      intro st count skipped
      rcases hc : getArgumentValue e.Arguments "conditionId" with _ | cid
      · simp only [tokenRegLoop, hc]
        rw [ih]
        simp [List.filter_cons, hc, tokenRegStep, Prod.ext_iff]
        all_goals omega
      · simp only [tokenRegLoop, hc]
        rw [ih]
        simp [List.filter_cons, hc, tokenRegStep, Prod.ext_iff]
        all_goals omega

theorem questionLoop_spec (events : List RawEvent) :
    ∀ st count skipped,
      questionLoop st count skipped events =
        (events.foldl questionStep st,
          count + (events.filter fun e =>
            (getArgumentValue e.Arguments "questionID").isSome).length,
          skipped + (events.filter fun e =>
            (getArgumentValue e.Arguments "questionID").isNone).length) := by
  induction events with
  | nil => intro st count skipped; simp [questionLoop]
  | cons e rest ih =>
      intro st count skipped
      rcases hc : getArgumentValue e.Arguments "questionID" with _ | qid
      · simp only [questionLoop, hc]
        rw [ih]
        simp [List.filter_cons, hc, questionStep, Prod.ext_iff]
        all_goals omega
      · simp only [questionLoop, hc]
        rw [ih]
        simp [List.filter_cons, hc, questionStep, Prod.ext_iff]
        all_goals omega

/-- Claim C6 counterexample: a failure of the EventSource fetch does
NOT propagate to the scheduler — the catch block logs and returns 0, so
the job resolves successfully (`Except.ok`) and the retry/backoff path
is never taken (a succeeding job's trace is exec/complete with no
sleep). -/
theorem C6_fetch_error_swallowed_counterexample :
    processTokenRegisteredEvents (Except.error "network error") [] =
      Except.ok ([], 0) ∧
    processQuestionInitializedEvents (Except.error "401 unauthorized") [] =
      Except.ok ([], 0) ∧
    processQueue [⟨⟨9, fun _ => true⟩, 0, DEFAULT_MAX_RETRIES, INITIAL_BACKOFF_MS⟩] =
      [QueueEvent.exec 9 0, QueueEvent.complete 9] := by
  refine ⟨rfl, rfl, ?_⟩
  simp [processQueue.eq_def]

/-- Claim C6 (amended): NO failure leaves either ingestion job — a
fetch failure is absorbed by the job's catch block, which returns count
0 with the store unchanged, so the scheduler's retry path is never
taken; per-event parsing failures (missing required argument) are
counted as skips and never abort the batch: on a successful fetch every
event of the batch is processed and the result counts exactly the
events with the required key present. -/
theorem C6_all_failures_absorbed :
    (∀ (msg : String) (st : List TokenRegRow),
      processTokenRegisteredEvents (Except.error msg) st = Except.ok (st, 0)) ∧
    (∀ (msg : String) (st : List QuestionRow),
      processQuestionInitializedEvents (Except.error msg) st = Except.ok (st, 0)) ∧
    (∀ (fetched : Except String (List RawEvent)) (st : List TokenRegRow),
      ∃ res, processTokenRegisteredEvents fetched st = Except.ok res) ∧
    (∀ (fetched : Except String (List RawEvent)) (st : List QuestionRow),
      ∃ res, processQuestionInitializedEvents fetched st = Except.ok res) ∧
    (∀ (events : List RawEvent) (st : List TokenRegRow),
      processTokenRegisteredEvents (Except.ok events) st =
        Except.ok (events.foldl tokenRegStep st,
          (events.filter fun e =>
            (getArgumentValue e.Arguments "conditionId").isSome).length)) ∧
    (∀ (events : List RawEvent) (st : List QuestionRow),
      processQuestionInitializedEvents (Except.ok events) st =
        Except.ok (events.foldl questionStep st,
          (events.filter fun e =>
            (getArgumentValue e.Arguments "questionID").isSome).length)) := by
  refine ⟨fun _ _ => rfl, fun _ _ => rfl, ?_, ?_, ?_, ?_⟩
  · intro fetched st
    cases fetched with
    | error msg => exact ⟨(st, 0), rfl⟩
    | ok events => exact ⟨_, rfl⟩
  · intro fetched st
    cases fetched with
    | error msg => exact ⟨(st, 0), rfl⟩
    | ok events => exact ⟨_, rfl⟩
  · intro events st
    rw [processTokenRegisteredEvents, tokenRegLoop_spec]
    simp
  · intro events st
    rw [processQuestionInitializedEvents, questionLoop_spec]
    simp

/-- Claim C7 counterexample: a token-registration event carrying only
`conditionId` — with `token0` and `token1` missing — is NOT skipped: a
row with null token columns is written and the event is counted. -/
theorem C7_partial_row_counterexample :
    processTokenRegisteredEvents
        (Except.ok [⟨[("conditionId", some "c")], "t", 1, "tx"⟩]) [] =
      Except.ok ([⟨"c", none, none, "t", 1, "tx"⟩], 1) := rfl

/-- Claim C7 (amended): for the token-registration kind only
`conditionId` is required: an event missing it is skipped (not written,
batch continues), while events with `conditionId` are written even when
`token0`/`token1` are absent (stored as nulls). -/
theorem C7_conditionId_required (events : List RawEvent) (st : List TokenRegRow) :
    processTokenRegisteredEvents (Except.ok events) st =
      Except.ok (events.foldl tokenRegStep st,
        (events.filter fun e =>
          (getArgumentValue e.Arguments "conditionId").isSome).length) ∧
    (∀ e : RawEvent, getArgumentValue e.Arguments "conditionId" = none →
      tokenRegStep st e = st) ∧
    (∀ (e : RawEvent) (cid : String),
      getArgumentValue e.Arguments "conditionId" = some cid →
      tokenRegStep st e =
        insertTokenRegisteredEvent st (tokenRegRowOfEvent e cid)) := by
  refine ⟨?_, ?_, ?_⟩
  · rw [processTokenRegisteredEvents, tokenRegLoop_spec]
    simp
  · intro e he
    rw [tokenRegStep, he]
  · intro e cid he
    rw [tokenRegStep, he]

/-- Claim C7 witness: instantiating the amended loop equation on a
two-event batch — one event with a full key, one with `conditionId`
missing — the missing-key event is skipped and only the other is
stored. -/
theorem C7_conditionId_required_witness :
    processTokenRegisteredEvents
        (Except.ok [⟨[("conditionId", some "c"), ("token0", some "100")], "t", 1, "tx1"⟩,
          ⟨[("token0", some "100")], "t", 2, "tx2"⟩]) [] =
      Except.ok
        (([⟨[("conditionId", some "c"), ("token0", some "100")], "t", 1, "tx1"⟩,
            ⟨[("token0", some "100")], "t", 2, "tx2"⟩] : List RawEvent).foldl
          tokenRegStep [],
          (([⟨[("conditionId", some "c"), ("token0", some "100")], "t", 1, "tx1"⟩,
              ⟨[("token0", some "100")], "t", 2, "tx2"⟩] : List RawEvent).filter
            fun e => (getArgumentValue e.Arguments "conditionId").isSome).length) ∧
    tokenRegStep [] ⟨[("token0", some "100")], "t", 2, "tx2"⟩ = [] :=
  ⟨(C7_conditionId_required
      [⟨[("conditionId", some "c"), ("token0", some "100")], "t", 1, "tx1"⟩,
        ⟨[("token0", some "100")], "t", 2, "tx2"⟩] []).1,
    (C7_conditionId_required
      [⟨[("conditionId", some "c"), ("token0", some "100")], "t", 1, "tx1"⟩,
        ⟨[("token0", some "100")], "t", 2, "tx2"⟩] []).2.1
      ⟨[("token0", some "100")], "t", 2, "tx2"⟩ (by decide)⟩

theorem startsWithCI_get (w key : List Char) (h : startsWithCI w key = true) :
    ∀ j (hj : j < key.length), ∃ hw : j < w.length,
      ciEq (w.get ⟨j, hw⟩) (key.get ⟨j, hj⟩) = true := by
  induction key generalizing w with
  | nil => intro j hj; cases hj
  | cons k ks ih =>
      cases w with
      | nil => cases h
      | cons c cs =>
          rw [startsWithCI, Bool.and_eq_true] at h
          intro j hj
          cases j with
          | zero => exact ⟨by simp, h.1⟩
          | succ j =>
              rcases ih cs h.2 j (Nat.lt_of_succ_lt_succ hj) with ⟨hw, hc⟩
              exact ⟨Nat.succ_lt_succ hw, hc⟩

theorem startsWithCI_key_nil (t : List Char) : startsWithCI t [] = true := by
  cases t <;> rfl

theorem startsWithCI_append_left (xs ys key : List Char)
    (h : startsWithCI xs key = true) : startsWithCI (xs ++ ys) key = true := by
  induction key generalizing xs with
  | nil => exact startsWithCI_key_nil _
  | cons k ks ih =>
      cases xs with
      | nil => cases h
      | cons c cs =>
          rw [startsWithCI, Bool.and_eq_true] at h
          rw [List.cons_append, startsWithCI, Bool.and_eq_true]
          exact ⟨h.1, ih cs h.2⟩

theorem ciEq_colon (c : Char) : ciEq c ':' = true ↔ c.toLower = ':' := by
  have hcl : ':'.toLower = ':' := by decide
  rw [ciEq, decide_eq_true_eq, hcl]

/-- A window starting with a nonempty colon-free chunk cannot match a
pattern of the form `kcore ++ ":"` whose continuation into the suffix
stays colon-free for the first `kcore.length` characters. -/
theorem startsWithCI_chunk_false (C suf kcore : List Char)
    (hne : C ≠ []) (hC : colonFree C = true)
    (hsuf : colonFree (suf.take kcore.length) = true) :
    startsWithCI (C ++ suf) (kcore ++ [':']) = false := by
  by_contra hcon
  have hT : startsWithCI (C ++ suf) (kcore ++ [':']) = true := by
    revert hcon
    cases startsWithCI (C ++ suf) (kcore ++ [':']) <;> simp
  rcases startsWithCI_get _ _ hT kcore.length (by simp) with ⟨hw, hc⟩
  have hkey : (kcore ++ [':']).get ⟨kcore.length, by simp⟩ = ':' := by
    simp [List.get_eq_getElem, List.getElem_append_right (Nat.le_refl kcore.length)]
  rw [hkey, ciEq_colon] at hc
  by_cases hlen : kcore.length < C.length
  · have hel : (C ++ suf).get ⟨kcore.length, hw⟩ = C[kcore.length] := by
      simp [List.get_eq_getElem, List.getElem_append_left hlen]
    have hmem : C[kcore.length] ∈ C := List.getElem_mem hlen
    have hall := List.all_eq_true.1 hC _ hmem
    rw [hel] at hc
    simp [hc] at hall
  · have hge : C.length ≤ kcore.length := Nat.le_of_not_lt hlen
    have hw' : kcore.length < (C ++ suf).length := hw
    have hw2 : kcore.length - C.length < suf.length := by
      rw [List.length_append] at hw'
      omega
    have hidx : kcore.length - C.length < kcore.length := by
      have hpos : 0 < C.length := List.length_pos.2 hne
      omega
    have hel : (C ++ suf).get ⟨kcore.length, hw⟩ = suf[kcore.length - C.length] := by
      simp [List.get_eq_getElem, List.getElem_append_right hge]
    have htl : kcore.length - C.length < (suf.take kcore.length).length := by
      rw [List.length_take]
      omega
    have hmem : suf[kcore.length - C.length] ∈ suf.take kcore.length := by
      have hm := List.getElem_mem htl
      rw [List.getElem_take] at hm
      exact hm
    have hall := List.all_eq_true.1 hsuf _ hmem
    rw [hel] at hc
    simp [hc] at hall

theorem plain_ne_of (c b : Char) (h : plainChar c = true) (hb : plainChar b = false) :
    c ≠ b := by
  intro hc
  subst hc
  rw [h] at hb
  cases hb

theorem plain_ciEq_colon (c : Char) (h : plainChar c = true) : ciEq c ':' = false := by
  rw [plainChar] at h
  simp only [Bool.and_eq_true, Bool.not_eq_true', decide_eq_false_iff_not] at h
  rw [ciEq, show ':'.toLower = ':' from by decide]
  simp [h.1.2]

theorem colonFree_cons (c : Char) (cs : List Char) (h : colonFree (c :: cs) = true) :
    colonFree cs = true := by
  rw [colonFree, List.all_cons, Bool.and_eq_true] at h
  rw [colonFree]
  exact h.2

theorem colonFree_of_plain (l : List Char) (h : l.all plainChar = true) :
    colonFree l = true := by
  rw [colonFree, List.all_eq_true]
  intro c hc
  have hp := plain_ciEq_colon c (List.all_eq_true.1 h c hc)
  rw [ciEq, show ':'.toLower = ':' from by decide] at hp
  simp [hp]

theorem colonFree_drop (l : List Char) (k : Nat) (h : colonFree l = true) :
    colonFree (l.drop k) = true := by
  rw [colonFree, List.all_eq_true]
  rw [colonFree] at h
  intro c hc
  exact List.all_eq_true.1 h c (List.mem_of_mem_drop hc)

theorem chunkOk_parts (l : List Char) (h : chunkOk l = true) :
    l ≠ [] ∧ l.all plainChar = true ∧ (∀ c cs, l = c :: cs → isWS c = false) ∧
      isWS (l.getLastD 'x') = false := by
  rw [chunkOk.eq_def] at h
  simp only [Bool.and_eq_true, Bool.not_eq_true'] at h
  obtain ⟨⟨⟨hne, hall⟩, hhead⟩, hlast⟩ := h
  refine ⟨?_, hall, ?_, hlast⟩
  · intro hl
    simp [hl] at hne
  · intro c cs hl
    rw [hl] at hhead
    simpa using hhead

theorem hasMismatch_startsWithCI (w K rest : List Char) (h : hasMismatch w K = true) :
    startsWithCI (w ++ rest) K = false := by
  rw [hasMismatch, List.any_eq_true] at h
  obtain ⟨j, hjmem, hj⟩ := h
  rw [List.mem_range] at hjmem
  have hjw : j < w.length := lt_of_lt_of_le hjmem (Nat.min_le_left _ _)
  have hjK : j < K.length := lt_of_lt_of_le hjmem (Nat.min_le_right _ _)
  rw [List.getD_eq_getElem w ' ' hjw, List.getD_eq_getElem K ' ' hjK,
    Bool.not_eq_true'] at hj
  by_contra hcon
  have hT : startsWithCI (w ++ rest) K = true := by
    revert hcon
    cases startsWithCI (w ++ rest) K <;> simp
  rcases startsWithCI_get _ _ hT j hjK with ⟨hw, hc⟩
  have hel : (w ++ rest).get ⟨j, hw⟩ = w[j] := by
    simp [List.get_eq_getElem, List.getElem_append_left hjw]
  rw [hel] at hc
  simp only [List.get_eq_getElem] at hc
  rw [hj] at hc
  cases hc

theorem preSkips_cons (c : Char) (cs K : List Char) (h : preSkips (c :: cs) K = true) :
    hasMismatch (c :: cs) K = true ∧ preSkips cs K = true := by
  rw [preSkips, List.all_eq_true] at h
  constructor
  · have h0 := h 0 (by rw [List.mem_range, List.length_cons]; omega)
    simpa using h0
  · rw [preSkips, List.all_eq_true]
    intro i hi
    rw [List.mem_range] at hi
    have hs := h (i + 1) (by rw [List.mem_range, List.length_cons]; omega)
    simpa using hs

theorem indexOfCI_preSkip (pre rest K : List Char) (h : preSkips pre K = true) :
    indexOfCI K (pre ++ rest) = (indexOfCI K rest).map (· + pre.length) := by
  induction pre with
  | nil => cases hr : indexOfCI K rest <;> simp [hr]
  | cons c cs ih =>
      obtain ⟨hm, hs⟩ := preSkips_cons c cs K h
      have hfalse := hasMismatch_startsWithCI (c :: cs) K rest hm
      rw [List.cons_append] at hfalse
      rw [List.cons_append]
      simp only [indexOfCI, hfalse, Bool.false_eq_true, if_false]
      rw [ih hs]
      cases hr : indexOfCI K rest <;> simp [hr] <;> omega

theorem fieldMatch_preSkip (pre rest K : List Char) (h : preSkips pre K = true) :
    fieldMatch K (pre ++ rest) = fieldMatch K rest := by
  induction pre with
  | nil => rfl
  | cons c cs ih =>
      obtain ⟨hm, hs⟩ := preSkips_cons c cs K h
      have hfalse := hasMismatch_startsWithCI (c :: cs) K rest hm
      rw [List.cons_append] at hfalse
      rw [List.cons_append]
      have step : fieldMatch K (c :: (cs ++ rest)) = fieldMatch K (cs ++ rest) := by
        simp [fieldMatch, hfalse]
      rw [step]
      exact ih hs

theorem startsWithCI_colonFree_false (t kcore : List Char) (h : colonFree t = true) :
    startsWithCI t (kcore ++ [':']) = false := by
  by_contra hcon
  have hT : startsWithCI t (kcore ++ [':']) = true := by
    revert hcon
    cases startsWithCI t (kcore ++ [':']) <;> simp
  rcases startsWithCI_get _ _ hT kcore.length (by simp) with ⟨hw, hc⟩
  have hkey : (kcore ++ [':']).get ⟨kcore.length, by simp⟩ = ':' := by
    simp [List.get_eq_getElem, List.getElem_append_right (Nat.le_refl kcore.length)]
  rw [hkey, ciEq_colon] at hc
  have hmem : t.get ⟨kcore.length, hw⟩ ∈ t := List.get_mem _ _ _
  rw [colonFree, List.all_eq_true] at h
  have hch := h _ hmem
  simp only [List.get_eq_getElem] at hc
  simp [hc] at hch

theorem startsWithCI_chunk_comma_false (C suf kcore : List Char)
    (hC : colonFree C = true) (hK : commaSafe (kcore ++ [':']) = true) :
    startsWithCI (C ++ ',' :: suf) (kcore ++ [':']) = false := by
  by_contra hcon
  have hT : startsWithCI (C ++ ',' :: suf) (kcore ++ [':']) = true := by
    revert hcon
    cases startsWithCI (C ++ ',' :: suf) (kcore ++ [':']) <;> simp
  by_cases hlen : kcore.length < C.length
  · rcases startsWithCI_get _ _ hT kcore.length (by simp) with ⟨hw, hc⟩
    have hkey : (kcore ++ [':']).get ⟨kcore.length, by simp⟩ = ':' := by
      simp [List.get_eq_getElem, List.getElem_append_right (Nat.le_refl kcore.length)]
    rw [hkey, ciEq_colon] at hc
    have hel : (C ++ ',' :: suf).get ⟨kcore.length, hw⟩ = C[kcore.length] := by
      simp [List.get_eq_getElem, List.getElem_append_left hlen]
    rw [hel] at hc
    have hmem := List.getElem_mem hlen
    rw [colonFree, List.all_eq_true] at hC
    have hch := hC _ hmem
    simp [hc] at hch
  · have hge : C.length ≤ kcore.length := Nat.le_of_not_lt hlen
    have hCk : C.length < (kcore ++ [':']).length := by
      rw [List.length_append, List.length_singleton]
      omega
    rcases startsWithCI_get _ _ hT C.length hCk with ⟨hw, hc⟩
    have hel : (C ++ ',' :: suf).get ⟨C.length, hw⟩ = ',' := by
      simp [List.get_eq_getElem, List.getElem_append_right (Nat.le_refl C.length)]
    rw [hel] at hc
    rw [commaSafe, List.all_eq_true] at hK
    have hmem : (kcore ++ [':']).get ⟨C.length, hCk⟩ ∈ kcore ++ [':'] :=
      List.get_mem _ _ _
    have hk := hK _ hmem
    rw [ciEq, decide_eq_true_eq, show ','.toLower = ',' from by decide] at hc
    rw [← hc] at hk
    simp at hk

theorem indexOfCI_chunk_comma (C suf kcore : List Char) (hC : colonFree C = true)
    (hK : commaSafe (kcore ++ [':']) = true) :
    indexOfCI (kcore ++ [':']) (C ++ ',' :: suf) =
      (indexOfCI (kcore ++ [':']) (',' :: suf)).map (· + C.length) := by
  induction C with
  | nil => cases hr : indexOfCI (kcore ++ [':']) (',' :: suf) <;> simp [hr]
  | cons c cs ih =>
      have hfalse := startsWithCI_chunk_comma_false (c :: cs) suf kcore hC hK
      rw [List.cons_append] at hfalse
      rw [List.cons_append]
      have step : indexOfCI (kcore ++ [':']) (c :: (cs ++ ',' :: suf)) =
          (indexOfCI (kcore ++ [':']) (cs ++ ',' :: suf)).map (· + 1) := by
        simp [indexOfCI, hfalse]
      rw [step, ih (colonFree_cons _ _ hC)]
      cases hr : indexOfCI (kcore ++ [':']) (',' :: suf) with
      | none => simp [hr]
      | some v =>
          simp only [hr, Option.map_some', List.length_cons, Option.some.injEq]
          omega

theorem indexOfCI_colonFree_none (t kcore : List Char) (h : colonFree t = true) :
    indexOfCI (kcore ++ [':']) t = none := by
  induction t with
  | nil => cases kcore <;> simp [indexOfCI, startsWithCI]
  | cons c cs ih =>
      have hfalse := startsWithCI_colonFree_false (c :: cs) kcore h
      simp [indexOfCI, hfalse, ih (colonFree_cons _ _ h)]

theorem fieldMatch_chunk_comma (C suf kcore : List Char) (hC : colonFree C = true)
    (hK : commaSafe (kcore ++ [':']) = true) :
    fieldMatch (kcore ++ [':']) (C ++ ',' :: suf) =
      fieldMatch (kcore ++ [':']) (',' :: suf) := by
  induction C with
  | nil => rfl
  | cons c cs ih =>
      have hfalse := startsWithCI_chunk_comma_false (c :: cs) suf kcore hC hK
      rw [List.cons_append] at hfalse
      rw [List.cons_append]
      have step : fieldMatch (kcore ++ [':']) (c :: (cs ++ ',' :: suf)) =
          fieldMatch (kcore ++ [':']) (cs ++ ',' :: suf) := by
        simp [fieldMatch, hfalse]
      rw [step]
      exact ih (colonFree_cons _ _ hC)

theorem fieldMatch_colonFree_none (t kcore : List Char) (h : colonFree t = true) :
    fieldMatch (kcore ++ [':']) t = none := by
  induction t with
  | nil => rfl
  | cons c cs ih =>
      have hfalse := startsWithCI_colonFree_false (c :: cs) kcore h
      have step : fieldMatch (kcore ++ [':']) (c :: cs) =
          fieldMatch (kcore ++ [':']) cs := by
        simp [fieldMatch, hfalse]
      rw [step]
      exact ih (colonFree_cons _ _ h)

theorem tailFieldAt_colonFree (t : List Char) (h : colonFree t = true) :
    tailFieldAt t = false := by
  rw [tailFieldAt,
    show ("res_data:".data) = ("res_data".data) ++ [':'] from rfl,
    show ("p1:".data) = ("p1".data) ++ [':'] from rfl,
    show ("p2:".data) = ("p2".data) ++ [':'] from rfl,
    show ("p3:".data) = ("p3".data) ++ [':'] from rfl,
    show ("initializer:".data) = ("initializer".data) ++ [':'] from rfl]
  rw [startsWithCI_colonFree_false t ("res_data".data) h,
    startsWithCI_colonFree_false t ("p1".data) h,
    startsWithCI_colonFree_false t ("p2".data) h,
    startsWithCI_colonFree_false t ("p3".data) h,
    startsWithCI_colonFree_false t ("initializer".data) h]
  rfl

theorem tailFieldAt_chunk_comma (C suf : List Char) (hC : colonFree C = true) :
    tailFieldAt (C ++ ',' :: suf) = false := by
  rw [tailFieldAt,
    show ("res_data:".data) = ("res_data".data) ++ [':'] from rfl,
    show ("p1:".data) = ("p1".data) ++ [':'] from rfl,
    show ("p2:".data) = ("p2".data) ++ [':'] from rfl,
    show ("p3:".data) = ("p3".data) ++ [':'] from rfl,
    show ("initializer:".data) = ("initializer".data) ++ [':'] from rfl]
  rw [startsWithCI_chunk_comma_false C suf ("res_data".data) hC (by decide),
    startsWithCI_chunk_comma_false C suf ("p1".data) hC (by decide),
    startsWithCI_chunk_comma_false C suf ("p2".data) hC (by decide),
    startsWithCI_chunk_comma_false C suf ("p3".data) hC (by decide),
    startsWithCI_chunk_comma_false C suf ("initializer".data) hC (by decide)]
  rfl

theorem wsRun_le_comma (a b : List Char) : wsRun (a ++ ',' :: b) ≤ a.length := by
  induction a with
  | nil =>
      rw [List.nil_append, wsRun, if_neg (by decide : ¬ isWS ',' = true)]
      simp
  | cons c cs ih =>
      rw [List.cons_append, wsRun]
      by_cases hc : isWS c = true
      · rw [if_pos hc]
        simpa using Nat.succ_le_succ ih
      · rw [if_neg hc]
        exact Nat.zero_le _

theorem nextFieldIdx_colonFree_none (t : List Char) (h : colonFree t = true) :
    nextFieldIdx t = none := by
  induction t with
  | nil => rfl
  | cons c cs ih =>
      have htf := tailFieldAt_colonFree _ (colonFree_drop (c :: cs) (wsRun (c :: cs)) h)
      simp [nextFieldIdx, htf, ih (colonFree_cons _ _ h)]

theorem nextFieldIdx_chunk_comma (C suf : List Char) (hC : colonFree C = true) :
    nextFieldIdx (C ++ ',' :: suf) = (nextFieldIdx (',' :: suf)).map (· + C.length) := by
  induction C with
  | nil => cases hr : nextFieldIdx (',' :: suf) <;> simp [hr]
  | cons c cs ih =>
      have hws := wsRun_le_comma (c :: cs) suf
      have hdrop_eq : ((c :: cs) ++ ',' :: suf).drop (wsRun ((c :: cs) ++ ',' :: suf)) =
          ((c :: cs).drop (wsRun ((c :: cs) ++ ',' :: suf))) ++ ',' :: suf := by
        rw [List.drop_append_eq_append_drop, Nat.sub_eq_zero_of_le hws, List.drop_zero]
      have htf : tailFieldAt (((c :: cs) ++ ',' :: suf).drop
          (wsRun ((c :: cs) ++ ',' :: suf))) = false := by
        rw [hdrop_eq]
        exact tailFieldAt_chunk_comma _ _ (colonFree_drop _ _ hC)
      rw [List.cons_append] at htf
      have step : nextFieldIdx (c :: (cs ++ ',' :: suf)) =
          (nextFieldIdx (cs ++ ',' :: suf)).map (· + 1) := by
        simp [nextFieldIdx, htf]
      rw [List.cons_append, step, ih (colonFree_cons _ _ hC)]
      cases hr : nextFieldIdx (',' :: suf) <;> simp [hr] <;> omega

theorem startsWithCI_self_append (k rest : List Char) :
    startsWithCI (k ++ rest) k = true := by
  induction k with
  | nil => exact startsWithCI_key_nil _
  | cons c cs ih =>
      rw [List.cons_append, startsWithCI, Bool.and_eq_true]
      exact ⟨by simp [ciEq], ih⟩

theorem indexOfCI_found (w K : List Char) (h : startsWithCI w K = true) :
    indexOfCI K w = some 0 := by
  cases w with
  | nil => simp [indexOfCI, h]
  | cons c cs => simp [indexOfCI, h]

theorem fieldMatch_found (c : Char) (cs K cap : List Char)
    (h : startsWithCI (c :: cs) K = true)
    (hcap : captureAfterKey ((c :: cs).drop K.length) = some cap) :
    fieldMatch K (c :: cs) = some cap := by
  simp [fieldMatch, h, hcap]

theorem wsRun_cons_not (c : Char) (l : List Char) (h : isWS c = false) :
    wsRun (c :: l) = 0 := by
  simp [wsRun, h]

theorem wsRun_cons_ws (c : Char) (l : List Char) (h : isWS c = true) :
    wsRun (c :: l) = wsRun l + 1 := by
  simp [wsRun, h]

theorem takeWhile_append_comma (P x : List Char) (hP : ∀ c ∈ P, c ≠ ',') :
    (P ++ ',' :: x).takeWhile (fun c => c ≠ ',') = P := by
  induction P with
  | nil => simp [List.takeWhile_cons]
  | cons p ps ih =>
      rw [List.cons_append, List.takeWhile_cons, if_pos (by simp [hP p (by simp)])]
      rw [ih (fun c hc => hP c (by simp [hc]))]

theorem takeWhile_all_ne (M : List Char) (hM : ∀ c ∈ M, c ≠ ',') :
    M.takeWhile (fun c => c ≠ ',') = M := by
  induction M with
  | nil => rfl
  | cons m ms ih =>
      rw [List.takeWhile_cons, if_pos (by simp [hM m (by simp)])]
      rw [ih (fun c hc => hM c (by simp [hc]))]

theorem chunk_no_comma (C : List Char) (h : chunkOk C = true) : ∀ c ∈ C, c ≠ ',' := by
  obtain ⟨_, hplain, _, _⟩ := chunkOk_parts C h
  intro c hc
  exact plain_ne_of c ',' (List.all_eq_true.1 hplain c hc) (by decide)

theorem chunk_colonFree (C : List Char) (h : chunkOk C = true) : colonFree C = true := by
  obtain ⟨_, hplain, _, _⟩ := chunkOk_parts C h
  exact colonFree_of_plain C hplain

theorem captureAfterKey_one_ws (c : Char) (tl : List Char)
    (hws : isWS c = false) (hc : c ≠ ',') :
    captureAfterKey (' ' :: c :: tl) =
      some ((c :: tl).takeWhile (fun a => a ≠ ',')) := by
  have hrun : wsRun (' ' :: c :: tl) = 1 := by
    rw [wsRun_cons_ws _ _ (by decide), wsRun_cons_not _ _ hws]
  simp only [captureAfterKey]
  rw [hrun]
  rw [show (' ' :: c :: tl).drop 1 = c :: tl from rfl]
  split
  · rename_i c1 tl1 heq
    injection heq with h1 h2
    subst h1
    subst h2
    rw [if_neg hc]
  · rename_i heq
    simp at heq

theorem captureAfterKey_chunk_comma (C x : List Char) (hC : chunkOk C = true) :
    captureAfterKey (' ' :: (C ++ ',' :: x)) = some C := by
  obtain ⟨hne, hplain, hhead, _⟩ := chunkOk_parts C hC
  cases C with
  | nil => exact absurd rfl hne
  | cons c cs =>
      have hws : isWS c = false := hhead c cs rfl
      have hc_ne : c ≠ ',' := chunk_no_comma _ hC c (by simp)
      rw [show ((c :: cs) ++ ',' :: x) = c :: (cs ++ ',' :: x) from rfl]
      rw [captureAfterKey_one_ws c (cs ++ ',' :: x) hws hc_ne]
      rw [show c :: (cs ++ ',' :: x) = (c :: cs) ++ ',' :: x from rfl]
      rw [takeWhile_append_comma _ x (chunk_no_comma _ hC)]

theorem captureAfterKey_chunk_end (M : List Char) (hM : chunkOk M = true) :
    captureAfterKey (' ' :: M) = some M := by
  obtain ⟨hne, hplain, hhead, _⟩ := chunkOk_parts M hM
  cases M with
  | nil => exact absurd rfl hne
  | cons m ms =>
      have hws : isWS m = false := hhead m ms rfl
      have hm_ne : m ≠ ',' := chunk_no_comma _ hM m (by simp)
      rw [captureAfterKey_one_ws m ms hws hm_ne]
      rw [takeWhile_all_ne _ (chunk_no_comma _ hM)]

theorem afterCommaDesc_not_comma (y : Char) (l : List Char) (hy : y ≠ ',') :
    afterCommaDesc (y :: l) = false := by
  unfold afterCommaDesc
  split
  · rename_i v heq
    injection heq with h1 h2
    exact absurd h1 hy
  · rfl

theorem afterCommaDesc_comma (v : List Char) :
    afterCommaDesc (',' :: v) =
      startsWithCI (v.drop (wsRun v)) ("description:".data) := rfl

theorem lazyCapture_step_delim (acc rest : List Char) (c : Char)
    (h1 : c ≠ '\n') (h2 : c ≠ '\r') (hd : afterCommaDesc rest = true) :
    lazyCapture acc (c :: rest) = some (acc ++ [c]) := by
  simp only [lazyCapture]
  rw [if_neg (by simp [h1, h2]), if_pos hd]

theorem lazyCapture_step_cont (acc rest : List Char) (c : Char)
    (h1 : c ≠ '\n') (h2 : c ≠ '\r') (hd : afterCommaDesc rest = false) :
    lazyCapture acc (c :: rest) = lazyCapture (acc ++ [c]) rest := by
  simp only [lazyCapture]
  rw [if_neg (by simp [h1, h2]), if_neg (by simp [hd])]

theorem lazyCapture_aux (v : List Char)
    (hv : startsWithCI (v.drop (wsRun v)) ("description:".data) = true) :
    ∀ (T acc : List Char), T ≠ [] → T.all plainChar = true →
      lazyCapture acc (T ++ ',' :: v) = some (acc ++ T) := by
  intro T
  induction T with
  | nil => intro acc hne _; exact absurd rfl hne
  | cons x xs ih =>
      intro acc _ hplain
      rw [List.all_cons, Bool.and_eq_true] at hplain
      have hx_n : x ≠ '\n' := plain_ne_of _ _ hplain.1 (by decide)
      have hx_r : x ≠ '\r' := plain_ne_of _ _ hplain.1 (by decide)
      rw [List.cons_append]
      cases xs with
      | nil =>
          rw [List.nil_append]
          rw [lazyCapture_step_delim acc (',' :: v) x hx_n hx_r
            (by rw [afterCommaDesc_comma]; exact hv)]
      | cons y ys =>
          have hy : y ≠ ',' :=
            plain_ne_of _ _ (List.all_eq_true.1 hplain.2 y (by simp)) (by decide)
          rw [show ((y :: ys) ++ ',' :: v) = y :: (ys ++ ',' :: v) from rfl]
          rw [lazyCapture_step_cont acc (y :: (ys ++ ',' :: v)) x hx_n hx_r
            (afterCommaDesc_not_comma y _ hy)]
          rw [show (y :: (ys ++ ',' :: v)) = (y :: ys) ++ ',' :: v from rfl]
          rw [ih (acc ++ [x]) (by simp) hplain.2]
          simp

theorem lazyCapture_chunk (acc T v : List Char) (hT : chunkOk T = true)
    (hv : startsWithCI (v.drop (wsRun v)) ("description:".data) = true) :
    lazyCapture acc (T ++ ',' :: v) = some (acc ++ T) := by
  obtain ⟨hne, hplain, _, _⟩ := chunkOk_parts T hT
  exact lazyCapture_aux v hv T acc hne hplain

theorem contTitle_ws_chunk (T v : List Char) (hT : chunkOk T = true)
    (hv : startsWithCI (v.drop (wsRun v)) ("description:".data) = true) :
    contTitle (' ' :: (T ++ ',' :: v)) = some T := by
  obtain ⟨hne, hplain, hhead, _⟩ := chunkOk_parts T hT
  cases T with
  | nil => exact absurd rfl hne
  | cons c cs =>
      have hws : isWS c = false := hhead c cs rfl
      have hrun : wsRun (' ' :: (c :: cs ++ ',' :: v)) = 1 := by
        rw [wsRun_cons_ws _ _ (by decide), List.cons_append, wsRun_cons_not _ _ hws]
      have hlz : lazyCapture [] ((' ' :: (c :: cs ++ ',' :: v)).drop 1) = some (c :: cs) := by
        simp only [List.drop_succ_cons, List.drop_zero]
        have hl := lazyCapture_chunk [] (c :: cs) v hT hv
        simpa using hl
      rw [contTitle, hrun]
      show contTitleAux (' ' :: (c :: cs ++ ',' :: v)) (0 + 1) = some (c :: cs)
      simp only [contTitleAux, Nat.zero_add, hlz]

theorem trim_cons_ws (c : Char) (l : List Char) (h : isWS c = true) :
    trimChars (c :: l) = trimChars l := by
  rw [trimChars, trimChars, List.dropWhile_cons, if_pos h]

theorem trim_concat_ws (l : List Char) (c : Char) (h : isWS c = true) :
    trimChars (l ++ [c]) = trimChars l := by
  rw [trimChars, trimChars, List.dropWhile_append]
  by_cases he : (l.dropWhile isWS).isEmpty = true
  · rw [if_pos he]
    rw [show List.dropWhile isWS [c] = [] from by simp [List.dropWhile_cons, h]]
    rw [show (l.dropWhile isWS) = [] from by simpa [List.isEmpty_iff] using he]
  · rw [if_neg he]
    rw [List.reverse_append]
    rw [show (([c] : List Char)).reverse ++ (l.dropWhile isWS).reverse =
      c :: (l.dropWhile isWS).reverse from rfl]
    rw [List.dropWhile_cons, if_pos h]

theorem trim_of_ends (c d : Char) (xs : List Char) (hc : isWS c = false)
    (hd : isWS d = false) : trimChars (c :: (xs ++ [d])) = c :: (xs ++ [d]) := by
  rw [trimChars, List.dropWhile_cons, if_neg (by simp [hc])]
  rw [show (c :: (xs ++ [d])) = (c :: xs) ++ [d] from rfl]
  rw [List.reverse_append]
  rw [show (([d] : List Char)).reverse ++ (c :: xs).reverse =
    d :: (c :: xs).reverse from rfl]
  rw [List.dropWhile_cons, if_neg (by simp [hd])]
  rw [List.reverse_cons, List.reverse_reverse]

theorem trimChars_chunk (l : List Char) (h : chunkOk l = true) : trimChars l = l := by
  obtain ⟨hne, _, hhead, hlast⟩ := chunkOk_parts l h
  rcases List.eq_nil_or_concat l with hnil | ⟨L, b, hLb⟩
  · exact absurd hnil hne
  · rw [List.concat_eq_append] at hLb
    have hb : isWS b = false := by
      rw [hLb, List.getLastD_concat] at hlast
      exact hlast
    cases L with
    | nil =>
        rw [hLb, List.nil_append]
        rw [trimChars, List.dropWhile_cons, if_neg (by simp [hb])]
        rw [show ([b] : List Char).reverse = [b] from rfl]
        rw [List.dropWhile_cons, if_neg (by simp [hb])]
        rfl
    | cons c cs =>
        have hc : isWS c = false := hhead c (cs ++ [b]) (by rw [hLb]; rfl)
        rw [hLb]
        exact trim_of_ends c b cs hc hb

theorem colonFree_cons_intro (c : Char) (cs : List Char) (hc : ¬ c.toLower = ':')
    (hcs : colonFree cs = true) : colonFree (c :: cs) = true := by
  rw [colonFree, List.all_cons, Bool.and_eq_true]
  refine ⟨by simp [hc], ?_⟩
  rw [colonFree] at hcs
  exact hcs

theorem titleMatchAt_text (T X : List Char) (hT : chunkOk T = true) :
    titleMatchAt ("q: title: ".data ++ (T ++ (", description: ".data ++ X))) = some T := by
  have hv : startsWithCI ((" description: ".data ++ X).drop
      (wsRun (" description: ".data ++ X))) ("description:".data) = true := by
    rw [show (" description: ".data ++ X : List Char) =
      ' ' :: ("description: ".data ++ X) from rfl]
    rw [wsRun_cons_ws _ _ (by decide)]
    rw [show ("description: ".data ++ X : List Char) =
      'd' :: ("escription: ".data ++ X) from rfl]
    rw [wsRun_cons_not _ _ (by decide)]
    rw [show (0 : Nat) + 1 = 1 from rfl]
    rw [show (' ' :: ('d' :: ("escription: ".data ++ X))).drop 1 =
      'd' :: ("escription: ".data ++ X) from rfl]
    rw [show ('d' :: ("escription: ".data ++ X)) =
      "description:".data ++ (' ' :: X) from rfl]
    exact startsWithCI_self_append _ _
  have h1 : startsWithCI ("q: title: ".data ++ (T ++ (", description: ".data ++ X)))
      ("q:".data) = true := by
    rw [show ("q: title: ".data : List Char) = "q:".data ++ " title: ".data from rfl,
      List.append_assoc]
    exact startsWithCI_self_append _ _
  simp only [titleMatchAt]
  rw [if_pos h1]
  rw [show ("q: title: ".data ++ (T ++ (", description: ".data ++ X))).drop 2 =
    " title: ".data ++ (T ++ (", description: ".data ++ X)) from rfl]
  have hws2 : wsRun (" title: ".data ++ (T ++ (", description: ".data ++ X))) = 1 := by
    rw [show (" title: ".data ++ (T ++ (", description: ".data ++ X)) : List Char) =
      ' ' :: ("title: ".data ++ (T ++ (", description: ".data ++ X))) from rfl]
    rw [wsRun_cons_ws _ _ (by decide)]
    rw [show ("title: ".data ++ (T ++ (", description: ".data ++ X)) : List Char) =
      't' :: ("itle: ".data ++ (T ++ (", description: ".data ++ X))) from rfl]
    rw [wsRun_cons_not _ _ (by decide)]
  rw [hws2]
  rw [show (" title: ".data ++ (T ++ (", description: ".data ++ X))).drop 1 =
    "title: ".data ++ (T ++ (", description: ".data ++ X)) from rfl]
  have h3 : startsWithCI ("title: ".data ++ (T ++ (", description: ".data ++ X)))
      ("title:".data) = true := by
    rw [show ("title: ".data : List Char) = "title:".data ++ [' '] from rfl,
      List.append_assoc]
    exact startsWithCI_self_append _ _
  rw [if_pos h3]
  rw [show ("title: ".data ++ (T ++ (", description: ".data ++ X))).drop 6 =
    ' ' :: (T ++ (", description: ".data ++ X)) from rfl]
  rw [show (", description: ".data ++ X : List Char) =
    ',' :: (" description: ".data ++ X) from rfl]
  rw [contTitle_ws_chunk T _ hT hv]
  rfl

theorem titleMatchScan_found (c : Char) (cs cap : List Char)
    (h : titleMatchAt (c :: cs) = some cap) : titleMatchScan (c :: cs) = some cap := by
  simp only [titleMatchScan, h]

theorem titleMatchScan_text (T X : List Char) (hT : chunkOk T = true) :
    titleMatchScan ("q: title: ".data ++ (T ++ (", description: ".data ++ X))) = some T := by
  exact titleMatchScan_found 'q'
    (": title: ".data ++ (T ++ (", description: ".data ++ X))) T
    (titleMatchAt_text T X hT)

theorem indexOfCI_desc_text (T X : List Char) (hTcf : colonFree T = true) :
    indexOfCI ("description:".data)
      ("q: title: ".data ++ (T ++ (", description: ".data ++ X))) =
      some (T.length + 12) := by
  rw [show ("description:".data : List Char) = "description".data ++ [':'] from rfl]
  rw [indexOfCI_preSkip ("q: title: ".data) _ _ (by decide)]
  rw [show (", description: ".data ++ X : List Char) =
    ',' :: (" description: ".data ++ X) from rfl]
  rw [indexOfCI_chunk_comma T _ _ hTcf (by decide)]
  rw [show (',' :: (" description: ".data ++ X) : List Char) =
    [',', ' '] ++ ("description: ".data ++ X) from rfl]
  rw [indexOfCI_preSkip [',', ' '] _ _ (by decide)]
  rw [indexOfCI_found _ _ (by
    rw [show ("description: ".data ++ X : List Char) =
      ("description".data ++ [':']) ++ (' ' :: X) from rfl]
    exact startsWithCI_self_append _ _)]
  simp only [Option.map_some', Option.some.injEq]
  rw [show ("q: title: ".data).length = 10 from rfl,
    show (([',', ' '] : List Char)).length = 2 from rfl]
  omega

theorem drop_desc_text (T X : List Char) :
    ("q: title: ".data ++ (T ++ (", description: ".data ++ X))).drop
      (T.length + 12 + 12) = ' ' :: X := by
  have hsplit : "q: title: ".data ++ (T ++ (", description: ".data ++ X)) =
      ("q: title: ".data ++ (T ++ ", description:".data)) ++ (' ' :: X) := by
    rw [List.append_assoc, List.append_assoc]
    exact rfl
  have hlen : ("q: title: ".data ++ (T ++ ", description:".data)).length =
      T.length + 12 + 12 := by
    rw [List.length_append, List.length_append,
      show ("q: title: ".data).length = 10 from rfl,
      show (", description:".data).length = 14 from rfl]
    omega
  rw [hsplit, List.drop_left' hlen]

theorem descriptionOf_A (T D : List Char) (hT : chunkOk T = true)
    (hD : chunkOk D = true) :
    descriptionOf ("q: title: ".data ++ (T ++ (", description: ".data ++ D))) = D := by
  have hcf' : colonFree (' ' :: D) = true :=
    colonFree_cons_intro ' ' D (by decide) (chunk_colonFree D hD)
  have hidx := indexOfCI_desc_text T D (chunk_colonFree T hT)
  have hdrop := drop_desc_text T D
  have hmar : indexOfCI ("market_id:".data) (' ' :: D) = none := by
    rw [show ("market_id:".data : List Char) = "market_id".data ++ [':'] from rfl]
    exact indexOfCI_colonFree_none _ _ hcf'
  have hnext : nextFieldIdx (' ' :: D) = none := nextFieldIdx_colonFree_none _ hcf'
  simp only [descriptionOf, hidx]
  rw [hdrop]
  simp only [hmar, hnext]
  rw [trim_cons_ws _ _ (by decide), trimChars_chunk D hD]

theorem descriptionOf_B (T D P M : List Char) (hT : chunkOk T = true)
    (hD : chunkOk D = true) (hP : chunkOk P = true) :
    descriptionOf ("q: title: ".data ++ (T ++ (", description: ".data ++
        (D ++ (", p1: ".data ++ (P ++ (", market_id: ".data ++ M))))))) =
      D ++ (", p1: ".data ++ (P ++ [','])) := by
  have hidx := indexOfCI_desc_text T
    (D ++ (", p1: ".data ++ (P ++ (", market_id: ".data ++ M))))
    (chunk_colonFree T hT)
  have hdrop := drop_desc_text T
    (D ++ (", p1: ".data ++ (P ++ (", market_id: ".data ++ M))))
  have hmar : indexOfCI ("market_id:".data)
      (' ' :: (D ++ (", p1: ".data ++ (P ++ (", market_id: ".data ++ M))))) =
      some (1 + (D.length + (6 + (P.length + 2)))) := by
    rw [show ("market_id:".data : List Char) = "market_id".data ++ [':'] from rfl]
    rw [show (' ' :: (D ++ (", p1: ".data ++ (P ++ (", market_id: ".data ++ M))))
        : List Char) =
      [' '] ++ (D ++ (", p1: ".data ++ (P ++ (", market_id: ".data ++ M)))) from rfl]
    rw [indexOfCI_preSkip [' '] _ _ (by decide)]
    rw [show (", p1: ".data ++ (P ++ (", market_id: ".data ++ M)) : List Char) =
      ',' :: (" p1: ".data ++ (P ++ (", market_id: ".data ++ M))) from rfl]
    rw [indexOfCI_chunk_comma D _ _ (chunk_colonFree D hD) (by decide)]
    rw [show (',' :: (" p1: ".data ++ (P ++ (", market_id: ".data ++ M))) : List Char) =
      ", p1: ".data ++ (P ++ (", market_id: ".data ++ M)) from rfl]
    rw [indexOfCI_preSkip (", p1: ".data) _ _ (by decide)]
    rw [show (", market_id: ".data ++ M : List Char) =
      ',' :: (" market_id: ".data ++ M) from rfl]
    rw [indexOfCI_chunk_comma P _ _ (chunk_colonFree P hP) (by decide)]
    rw [show (',' :: (" market_id: ".data ++ M) : List Char) =
      [',', ' '] ++ ("market_id: ".data ++ M) from rfl]
    rw [indexOfCI_preSkip [',', ' '] _ _ (by decide)]
    rw [indexOfCI_found _ _ (by
      rw [show ("market_id: ".data ++ M : List Char) =
        ("market_id".data ++ [':']) ++ (' ' :: M) from rfl]
      exact startsWithCI_self_append _ _)]
    simp only [Option.map_some', Option.some.injEq]
    rw [show (([',', ' '] : List Char)).length = 2 from rfl,
      show (", p1: ".data).length = 6 from rfl,
      show (([' '] : List Char)).length = 1 from rfl]
    omega
  have hsplit2 : (' ' :: (D ++ (", p1: ".data ++ (P ++ (", market_id: ".data ++ M))))) =
      (' ' :: (D ++ (", p1: ".data ++ (P ++ [',', ' '])))) ++
        ("market_id: ".data ++ M) := by
    conv_rhs => rw [List.cons_append, List.append_assoc, List.append_assoc,
      List.append_assoc]
    exact rfl
  have htake : (' ' :: (D ++ (", p1: ".data ++
        (P ++ (", market_id: ".data ++ M))))).take
        (1 + (D.length + (6 + (P.length + 2)))) =
      ' ' :: (D ++ (", p1: ".data ++ (P ++ [',', ' ']))) := by
    rw [hsplit2]
    rw [List.take_left' (by
      rw [List.length_cons, List.length_append, List.length_append,
        List.length_append, show (", p1: ".data).length = 6 from rfl,
        show (([',', ' '] : List Char)).length = 2 from rfl]
      omega)]
  have htrim : trimChars (' ' :: (D ++ (", p1: ".data ++ (P ++ [',', ' '])))) =
      D ++ (", p1: ".data ++ (P ++ [','])) := by
    rw [trim_cons_ws _ _ (by decide)]
    have hsplit3 : D ++ (", p1: ".data ++ (P ++ ([',', ' '] : List Char))) =
        (D ++ (", p1: ".data ++ (P ++ [','])) ) ++ [' '] := by
      conv_rhs => rw [List.append_assoc, List.append_assoc, List.append_assoc]
      exact rfl
    rw [hsplit3, trim_concat_ws _ _ (by decide)]
    obtain ⟨hneD, _, hheadD, _⟩ := chunkOk_parts D hD
    cases D with
    | nil => exact absurd rfl hneD
    | cons dh dt =>
        have hdh : isWS dh = false := hheadD dh dt rfl
        have hsplit4 : (dh :: dt) ++ (", p1: ".data ++ (P ++ ([','] : List Char))) =
            dh :: ((dt ++ (", p1: ".data ++ P)) ++ [',']) := by
          rw [List.cons_append, List.append_assoc, List.append_assoc]
        rw [hsplit4, trim_of_ends dh ',' _ hdh (by decide)]
  simp only [descriptionOf, hidx]
  rw [hdrop]
  simp only [hmar]
  rw [htake, htrim]

theorem fieldMatch_A_none (T D kcore : List Char) (hT : chunkOk T = true)
    (hD : chunkOk D = true)
    (h1 : preSkips ("q: title: ".data) (kcore ++ [':']) = true)
    (h2 : preSkips (", description: ".data) (kcore ++ [':']) = true)
    (hK : commaSafe (kcore ++ [':']) = true) :
    fieldMatch (kcore ++ [':'])
      ("q: title: ".data ++ (T ++ (", description: ".data ++ D))) = none := by
  rw [fieldMatch_preSkip _ _ _ h1]
  rw [show (", description: ".data ++ D : List Char) =
    ',' :: (" description: ".data ++ D) from rfl]
  rw [fieldMatch_chunk_comma T _ _ (chunk_colonFree T hT) hK]
  rw [show (',' :: (" description: ".data ++ D) : List Char) =
    ", description: ".data ++ D from rfl]
  rw [fieldMatch_preSkip _ _ _ h2]
  exact fieldMatch_colonFree_none _ _ (chunk_colonFree D hD)

theorem fieldMatch_B_none (T D P M kcore : List Char) (hT : chunkOk T = true)
    (hD : chunkOk D = true) (hP : chunkOk P = true) (hM : chunkOk M = true)
    (h1 : preSkips ("q: title: ".data) (kcore ++ [':']) = true)
    (h2 : preSkips (", description: ".data) (kcore ++ [':']) = true)
    (h3 : preSkips (", p1: ".data) (kcore ++ [':']) = true)
    (h4 : preSkips (", market_id: ".data) (kcore ++ [':']) = true)
    (hK : commaSafe (kcore ++ [':']) = true) :
    fieldMatch (kcore ++ [':'])
      ("q: title: ".data ++ (T ++ (", description: ".data ++
        (D ++ (", p1: ".data ++ (P ++ (", market_id: ".data ++ M))))))) = none := by
  rw [fieldMatch_preSkip _ _ _ h1]
  rw [show (", description: ".data ++
      (D ++ (", p1: ".data ++ (P ++ (", market_id: ".data ++ M)))) : List Char) =
    ',' :: (" description: ".data ++
      (D ++ (", p1: ".data ++ (P ++ (", market_id: ".data ++ M))))) from rfl]
  rw [fieldMatch_chunk_comma T _ _ (chunk_colonFree T hT) hK]
  rw [show (',' :: (" description: ".data ++
      (D ++ (", p1: ".data ++ (P ++ (", market_id: ".data ++ M))))) : List Char) =
    ", description: ".data ++
      (D ++ (", p1: ".data ++ (P ++ (", market_id: ".data ++ M)))) from rfl]
  rw [fieldMatch_preSkip _ _ _ h2]
  rw [show (", p1: ".data ++ (P ++ (", market_id: ".data ++ M)) : List Char) =
    ',' :: (" p1: ".data ++ (P ++ (", market_id: ".data ++ M))) from rfl]
  rw [fieldMatch_chunk_comma D _ _ (chunk_colonFree D hD) hK]
  rw [show (',' :: (" p1: ".data ++ (P ++ (", market_id: ".data ++ M))) : List Char) =
    ", p1: ".data ++ (P ++ (", market_id: ".data ++ M)) from rfl]
  rw [fieldMatch_preSkip _ _ _ h3]
  rw [show (", market_id: ".data ++ M : List Char) =
    ',' :: (" market_id: ".data ++ M) from rfl]
  rw [fieldMatch_chunk_comma P _ _ (chunk_colonFree P hP) hK]
  rw [show (',' :: (" market_id: ".data ++ M) : List Char) =
    ", market_id: ".data ++ M from rfl]
  rw [fieldMatch_preSkip _ _ _ h4]
  exact fieldMatch_colonFree_none _ _ (chunk_colonFree M hM)

theorem fieldMatch_B_p1 (T D P M : List Char) (hT : chunkOk T = true)
    (hD : chunkOk D = true) (hP : chunkOk P = true) :
    fieldMatch ("p1".data ++ [':'])
      ("q: title: ".data ++ (T ++ (", description: ".data ++
        (D ++ (", p1: ".data ++ (P ++ (", market_id: ".data ++ M))))))) = some P := by
  rw [fieldMatch_preSkip ("q: title: ".data) _ _ (by decide)]
  rw [show (", description: ".data ++
      (D ++ (", p1: ".data ++ (P ++ (", market_id: ".data ++ M)))) : List Char) =
    ',' :: (" description: ".data ++
      (D ++ (", p1: ".data ++ (P ++ (", market_id: ".data ++ M))))) from rfl]
  rw [fieldMatch_chunk_comma T _ _ (chunk_colonFree T hT) (by decide)]
  rw [show (',' :: (" description: ".data ++
      (D ++ (", p1: ".data ++ (P ++ (", market_id: ".data ++ M))))) : List Char) =
    ", description: ".data ++
      (D ++ (", p1: ".data ++ (P ++ (", market_id: ".data ++ M)))) from rfl]
  rw [fieldMatch_preSkip (", description: ".data) _ _ (by decide)]
  rw [show (", p1: ".data ++ (P ++ (", market_id: ".data ++ M)) : List Char) =
    ',' :: (" p1: ".data ++ (P ++ (", market_id: ".data ++ M))) from rfl]
  rw [fieldMatch_chunk_comma D _ _ (chunk_colonFree D hD) (by decide)]
  rw [show (',' :: (" p1: ".data ++ (P ++ (", market_id: ".data ++ M))) : List Char) =
    [',', ' '] ++ ("p1: ".data ++ (P ++ (", market_id: ".data ++ M))) from rfl]
  rw [fieldMatch_preSkip [',', ' '] _ _ (by decide)]
  exact fieldMatch_found 'p' ("1: ".data ++ (P ++ (", market_id: ".data ++ M)))
    ("p1".data ++ [':']) P
    (by
      rw [show ('p' :: ("1: ".data ++ (P ++ (", market_id: ".data ++ M))) : List Char) =
        ("p1".data ++ [':']) ++ (' ' :: (P ++ (", market_id: ".data ++ M))) from rfl]
      exact startsWithCI_self_append _ _)
    (by
      rw [show (('p' :: ("1: ".data ++ (P ++ (", market_id: ".data ++ M)))).drop
          (("p1".data ++ [':']).length) : List Char) =
        ' ' :: (P ++ (", market_id: ".data ++ M)) from rfl]
      rw [show (", market_id: ".data ++ M : List Char) =
        ',' :: (" market_id: ".data ++ M) from rfl]
      exact captureAfterKey_chunk_comma P _ hP)

theorem fieldMatch_B_market (T D P M : List Char) (hT : chunkOk T = true)
    (hD : chunkOk D = true) (hP : chunkOk P = true) (hM : chunkOk M = true) :
    fieldMatch ("market_id".data ++ [':'])
      ("q: title: ".data ++ (T ++ (", description: ".data ++
        (D ++ (", p1: ".data ++ (P ++ (", market_id: ".data ++ M))))))) = some M := by
  rw [fieldMatch_preSkip ("q: title: ".data) _ _ (by decide)]
  rw [show (", description: ".data ++
      (D ++ (", p1: ".data ++ (P ++ (", market_id: ".data ++ M)))) : List Char) =
    ',' :: (" description: ".data ++
      (D ++ (", p1: ".data ++ (P ++ (", market_id: ".data ++ M))))) from rfl]
  rw [fieldMatch_chunk_comma T _ _ (chunk_colonFree T hT) (by decide)]
  rw [show (',' :: (" description: ".data ++
      (D ++ (", p1: ".data ++ (P ++ (", market_id: ".data ++ M))))) : List Char) =
    ", description: ".data ++
      (D ++ (", p1: ".data ++ (P ++ (", market_id: ".data ++ M)))) from rfl]
  rw [fieldMatch_preSkip (", description: ".data) _ _ (by decide)]
  rw [show (", p1: ".data ++ (P ++ (", market_id: ".data ++ M)) : List Char) =
    ',' :: (" p1: ".data ++ (P ++ (", market_id: ".data ++ M))) from rfl]
  rw [fieldMatch_chunk_comma D _ _ (chunk_colonFree D hD) (by decide)]
  rw [show (',' :: (" p1: ".data ++ (P ++ (", market_id: ".data ++ M))) : List Char) =
    ", p1: ".data ++ (P ++ (", market_id: ".data ++ M)) from rfl]
  rw [fieldMatch_preSkip (", p1: ".data) _ _ (by decide)]
  rw [show (", market_id: ".data ++ M : List Char) =
    ',' :: (" market_id: ".data ++ M) from rfl]
  rw [fieldMatch_chunk_comma P _ _ (chunk_colonFree P hP) (by decide)]
  rw [show (',' :: (" market_id: ".data ++ M) : List Char) =
    [',', ' '] ++ ("market_id: ".data ++ M) from rfl]
  rw [fieldMatch_preSkip [',', ' '] _ _ (by decide)]
  exact fieldMatch_found 'm' ("arket_id: ".data ++ M) ("market_id".data ++ [':']) M
    (by
      rw [show ('m' :: ("arket_id: ".data ++ M) : List Char) =
        ("market_id".data ++ [':']) ++ (' ' :: M) from rfl]
      exact startsWithCI_self_append _ _)
    (by
      rw [show (('m' :: ("arket_id: ".data ++ M)).drop
          (("market_id".data ++ [':']).length) : List Char) = ' ' :: M from rfl]
      exact captureAfterKey_chunk_end M hM)

theorem data_mk (l : List Char) : (String.mk l).data = l := rfl

/-- Claim C9 counterexample: on
`"title: T, description: D, p1: No, market_id: M"` the parser cuts the
description at `market_id:` (index 12 of the tail) even though the
field `p1:` occurs FIRST after `description:` (match index 3), so the
description is `"D, p1: No,"` and not the `"D,"` that cutting at the
first-occurring field of the claim's list would give. -/
theorem C9_market_id_priority_counterexample :
    (parseAncillaryData "title: T, description: D, p1: No, market_id: M").description =
      "D, p1: No," ∧
    nextFieldIdx (" D, p1: No, market_id: M".data) = some 3 ∧
    indexOfCI ("market_id:".data) (" D, p1: No, market_id: M".data) = some 12 ∧
    String.mk (trimChars ((" D, p1: No, market_id: M".data).take 3)) = "D," ∧
    ("D, p1: No," : String) ≠ "D," := by
  refine ⟨rfl, rfl, rfl, rfl, by decide⟩

/-- Claim C9 (amended): for every decoded text of the shape
`q: title: T, description: D` (with `T`, `D`, `P`, `M` nonempty plain
chunks), the parser extracts `title = T` (delimited by the literal
follow-on token `description:`), `description = D`, and omits all six
optional fields; when `, p1: P, market_id: M` follows, the description
is cut at `market_id:` — NOT at the first-occurring of the other field
keys — giving `D ++ ", p1: " ++ P ++ ","`, while the `p1` and
`market_id` fields are extracted and the four absent fields are
omitted; keys are matched case-insensitively and, when `market_id:` is
absent, the description is cut at the leftmost of the other field keys
(third, concrete conjunct). -/
theorem C9_parser_extraction (T D P M : List Char) (hT : chunkOk T = true)
    (hD : chunkOk D = true) (hP : chunkOk P = true) (hM : chunkOk M = true) :
    parseAncillaryData (String.mk ("q: title: ".data ++ (T ++
        (", description: ".data ++ D)))) =
      ⟨String.mk T, String.mk D, none, none, none, none, none, none⟩ ∧
    parseAncillaryData (String.mk ("q: title: ".data ++ (T ++
        (", description: ".data ++ (D ++ (", p1: ".data ++
        (P ++ (", market_id: ".data ++ M)))))))) =
      ⟨String.mk T, String.mk (D ++ (", p1: ".data ++ (P ++ [',']))),
       some (String.mk M), none, some (String.mk P), none, none, none⟩ ∧
    parseAncillaryData
        "Q: TITLE: Rain, DESCRIPTION: Wet, RES_DATA: p1 or p2, P1: No, P2: Yes" =
      ⟨"Rain", "Wet,", none, some "p1 or p2", some "No", some "Yes", none, none⟩ := by
  refine ⟨?_, ?_, by decide⟩
  · have htitle := titleMatchScan_text T D hT
    have hdesc := descriptionOf_A T D hT hD
    have hmar : fieldMatch ("market_id:".data)
        ("q: title: ".data ++ (T ++ (", description: ".data ++ D))) = none := by
      rw [show ("market_id:".data : List Char) = "market_id".data ++ [':'] from rfl]
      exact fieldMatch_A_none T D ("market_id".data) hT hD
        (by decide) (by decide) (by decide)
    have hres : fieldMatch ("res_data:".data)
        ("q: title: ".data ++ (T ++ (", description: ".data ++ D))) = none := by
      rw [show ("res_data:".data : List Char) = "res_data".data ++ [':'] from rfl]
      exact fieldMatch_A_none T D ("res_data".data) hT hD
        (by decide) (by decide) (by decide)
    have hp1 : fieldMatch ("p1:".data)
        ("q: title: ".data ++ (T ++ (", description: ".data ++ D))) = none := by
      rw [show ("p1:".data : List Char) = "p1".data ++ [':'] from rfl]
      exact fieldMatch_A_none T D ("p1".data) hT hD
        (by decide) (by decide) (by decide)
    have hp2 : fieldMatch ("p2:".data)
        ("q: title: ".data ++ (T ++ (", description: ".data ++ D))) = none := by
      rw [show ("p2:".data : List Char) = "p2".data ++ [':'] from rfl]
      exact fieldMatch_A_none T D ("p2".data) hT hD
        (by decide) (by decide) (by decide)
    have hp3 : fieldMatch ("p3:".data)
        ("q: title: ".data ++ (T ++ (", description: ".data ++ D))) = none := by
      rw [show ("p3:".data : List Char) = "p3".data ++ [':'] from rfl]
      exact fieldMatch_A_none T D ("p3".data) hT hD
        (by decide) (by decide) (by decide)
    have hini : fieldMatch ("initializer:".data)
        ("q: title: ".data ++ (T ++ (", description: ".data ++ D))) = none := by
      rw [show ("initializer:".data : List Char) = "initializer".data ++ [':'] from rfl]
      exact fieldMatch_A_none T D ("initializer".data) hT hD
        (by decide) (by decide) (by decide)
    show (⟨String.mk (trimChars ((titleMatchScan
          ("q: title: ".data ++ (T ++ (", description: ".data ++ D)))).getD [])),
        String.mk (descriptionOf
          ("q: title: ".data ++ (T ++ (", description: ".data ++ D)))),
        (fieldMatch ("market_id:".data)
          ("q: title: ".data ++ (T ++ (", description: ".data ++ D)))).map
          (fun l => String.mk (trimChars l)),
        (fieldMatch ("res_data:".data)
          ("q: title: ".data ++ (T ++ (", description: ".data ++ D)))).map
          (fun l => String.mk (trimChars l)),
        (fieldMatch ("p1:".data)
          ("q: title: ".data ++ (T ++ (", description: ".data ++ D)))).map
          (fun l => String.mk (trimChars l)),
        (fieldMatch ("p2:".data)
          ("q: title: ".data ++ (T ++ (", description: ".data ++ D)))).map
          (fun l => String.mk (trimChars l)),
        (fieldMatch ("p3:".data)
          ("q: title: ".data ++ (T ++ (", description: ".data ++ D)))).map
          (fun l => String.mk (trimChars l)),
        (fieldMatch ("initializer:".data)
          ("q: title: ".data ++ (T ++ (", description: ".data ++ D)))).map
          (fun l => String.mk (trimChars l))⟩ : AncillaryRecord) =
      ⟨String.mk T, String.mk D, none, none, none, none, none, none⟩
    rw [htitle, hdesc, hmar, hres, hp1, hp2, hp3, hini]
    rw [show ((some T).getD ([] : List Char)) = T from rfl, trimChars_chunk T hT]
    rfl
  · have htitle := titleMatchScan_text T
      (D ++ (", p1: ".data ++ (P ++ (", market_id: ".data ++ M)))) hT
    have hdesc := descriptionOf_B T D P M hT hD hP
    have hmar : fieldMatch ("market_id:".data)
        ("q: title: ".data ++ (T ++ (", description: ".data ++
          (D ++ (", p1: ".data ++ (P ++ (", market_id: ".data ++ M))))))) =
        some M := by
      rw [show ("market_id:".data : List Char) = "market_id".data ++ [':'] from rfl]
      exact fieldMatch_B_market T D P M hT hD hP hM
    have hres : fieldMatch ("res_data:".data)
        ("q: title: ".data ++ (T ++ (", description: ".data ++
          (D ++ (", p1: ".data ++ (P ++ (", market_id: ".data ++ M))))))) = none := by
      rw [show ("res_data:".data : List Char) = "res_data".data ++ [':'] from rfl]
      exact fieldMatch_B_none T D P M ("res_data".data) hT hD hP hM
        (by decide) (by decide) (by decide) (by decide) (by decide)
    have hp1 : fieldMatch ("p1:".data)
        ("q: title: ".data ++ (T ++ (", description: ".data ++
          (D ++ (", p1: ".data ++ (P ++ (", market_id: ".data ++ M))))))) =
        some P := by
      rw [show ("p1:".data : List Char) = "p1".data ++ [':'] from rfl]
      exact fieldMatch_B_p1 T D P M hT hD hP
    have hp2 : fieldMatch ("p2:".data)
        ("q: title: ".data ++ (T ++ (", description: ".data ++
          (D ++ (", p1: ".data ++ (P ++ (", market_id: ".data ++ M))))))) = none := by
      rw [show ("p2:".data : List Char) = "p2".data ++ [':'] from rfl]
      exact fieldMatch_B_none T D P M ("p2".data) hT hD hP hM
        (by decide) (by decide) (by decide) (by decide) (by decide)
    have hp3 : fieldMatch ("p3:".data)
        ("q: title: ".data ++ (T ++ (", description: ".data ++
          (D ++ (", p1: ".data ++ (P ++ (", market_id: ".data ++ M))))))) = none := by
      rw [show ("p3:".data : List Char) = "p3".data ++ [':'] from rfl]
      exact fieldMatch_B_none T D P M ("p3".data) hT hD hP hM
        (by decide) (by decide) (by decide) (by decide) (by decide)
    have hini : fieldMatch ("initializer:".data)
        ("q: title: ".data ++ (T ++ (", description: ".data ++
          (D ++ (", p1: ".data ++ (P ++ (", market_id: ".data ++ M))))))) = none := by
      rw [show ("initializer:".data : List Char) = "initializer".data ++ [':'] from rfl]
      exact fieldMatch_B_none T D P M ("initializer".data) hT hD hP hM
        (by decide) (by decide) (by decide) (by decide) (by decide)
    show (⟨String.mk (trimChars ((titleMatchScan
          ("q: title: ".data ++ (T ++ (", description: ".data ++
            (D ++ (", p1: ".data ++ (P ++ (", market_id: ".data ++ M)))))))).getD [])),
        String.mk (descriptionOf
          ("q: title: ".data ++ (T ++ (", description: ".data ++
            (D ++ (", p1: ".data ++ (P ++ (", market_id: ".data ++ M)))))))),
        (fieldMatch ("market_id:".data)
          ("q: title: ".data ++ (T ++ (", description: ".data ++
            (D ++ (", p1: ".data ++ (P ++ (", market_id: ".data ++ M)))))))).map
          (fun l => String.mk (trimChars l)),
        (fieldMatch ("res_data:".data)
          ("q: title: ".data ++ (T ++ (", description: ".data ++
            (D ++ (", p1: ".data ++ (P ++ (", market_id: ".data ++ M)))))))).map
          (fun l => String.mk (trimChars l)),
        (fieldMatch ("p1:".data)
          ("q: title: ".data ++ (T ++ (", description: ".data ++
            (D ++ (", p1: ".data ++ (P ++ (", market_id: ".data ++ M)))))))).map
          (fun l => String.mk (trimChars l)),
        (fieldMatch ("p2:".data)
          ("q: title: ".data ++ (T ++ (", description: ".data ++
            (D ++ (", p1: ".data ++ (P ++ (", market_id: ".data ++ M)))))))).map
          (fun l => String.mk (trimChars l)),
        (fieldMatch ("p3:".data)
          ("q: title: ".data ++ (T ++ (", description: ".data ++
            (D ++ (", p1: ".data ++ (P ++ (", market_id: ".data ++ M)))))))).map
          (fun l => String.mk (trimChars l)),
        (fieldMatch ("initializer:".data)
          ("q: title: ".data ++ (T ++ (", description: ".data ++
            (D ++ (", p1: ".data ++ (P ++ (", market_id: ".data ++ M)))))))).map
          (fun l => String.mk (trimChars l))⟩ : AncillaryRecord) =
      ⟨String.mk T, String.mk (D ++ (", p1: ".data ++ (P ++ [',']))),
       some (String.mk M), none, some (String.mk P), none, none, none⟩
    rw [htitle, hdesc, hmar, hres, hp1, hp2, hp3, hini]
    rw [show ((some T).getD ([] : List Char)) = T from rfl, trimChars_chunk T hT]
    simp only [Option.map_some']
    rw [trimChars_chunk M hM, trimChars_chunk P hP]
    rfl

/-- Claim C9 witness: the amended extraction theorem instantiated at the
concrete chunks `Rain`, `Wet roads`, `No`, `mk77`. -/
theorem C9_parser_extraction_witness :
    (chunkOk "Rain".data = true ∧ chunkOk "Wet roads".data = true ∧
     chunkOk "No".data = true ∧ chunkOk "mk77".data = true) ∧
    parseAncillaryData (String.mk ("q: title: ".data ++ ("Rain".data ++
        (", description: ".data ++ ("Wet roads".data ++ (", p1: ".data ++
        ("No".data ++ (", market_id: ".data ++ "mk77".data)))))))) =
      ⟨"Rain", "Wet roads, p1: No,", some "mk77", none, some "No",
       none, none, none⟩ :=
  ⟨⟨by decide, by decide, by decide, by decide⟩, by
    have h := (C9_parser_extraction "Rain".data "Wet roads".data "No".data
      "mk77".data (by decide) (by decide) (by decide) (by decide)).2.1
    exact h⟩
